import Mathlib

/-
Verification of the manifest-translation scripts
(ExtractChineseTranslations.py / RestoreChineseTranslations.py).

Texts are modelled as `List Char`; the regex operations the scripts
perform are embedded as deterministic functions on character lists.
Each pattern the scripts compile is simple enough that the regex
engine's backtracking never changes the outcome, so the deterministic
embedding below is byte-faithful:

* `"F"\s*:\s*"([^"]*)"` : after the literal key and colon, `\s*` is a
  maximal whitespace run (no whitespace character is `:` or `"`), and
  `[^"]*` is the maximal quote-free run, which must be followed by `"`.
* `re.search` scans candidate start positions left to right.
* `re.sub` (without a count) rewrites every non-overlapping match,
  scanning left to right and resuming after each match.
-/

namespace SMTMS

/-- Python `\s` for text patterns: ASCII whitespace plus the Unicode
whitespace characters CPython's `re` recognises. -/
def isWS (c : Char) : Bool :=
  (c == ' ') || (c == '\t') || (c == '\n') || (c == '\r') ||
  (c.toNat == 0x0b) || (c.toNat == 0x0c) ||
  (c.toNat == 0x1c) || (c.toNat == 0x1d) || (c.toNat == 0x1e) || (c.toNat == 0x1f) ||
  (c.toNat == 0x85) || (c.toNat == 0xa0) || (c.toNat == 0x1680) ||
  (0x2000 ≤ c.toNat && c.toNat ≤ 0x200a) ||
  (c.toNat == 0x2028) || (c.toNat == 0x2029) ||
  (c.toNat == 0x202f) || (c.toNat == 0x205f) || (c.toNat == 0x3000)

/-- A quote-free character list (the language of `[^"]*`). -/
def noQuote (s : List Char) : Bool := s.all (fun c => c != '"')

/-- Consume one expected character. -/
def matchChar (c : Char) : List Char → Option (List Char)
  | x :: t => if x = c then some t else none
  | [] => none

/-- Consume a literal, comparing characters with `eqc` (exact or
case-insensitive, mirroring `re.IGNORECASE`). -/
def matchLits (eqc : Char → Char → Bool) : List Char → List Char → Option (List Char)
  | [], s => some s
  | _ :: _, [] => none
  | a :: f, b :: s => if eqc a b then matchLits eqc f s else none

/-- Pointwise comparison of two equal-length lists under `eqc`. -/
def matchedL (eqc : Char → Char → Bool) : List Char → List Char → Bool
  | [], [] => true
  | a :: f, b :: p => eqc a b && matchedL eqc f p
  | _, _ => false

/-- Split at the first occurrence of the delimiter `d`: the span before
it (which is `d`-free) and the text after it.  This is `([^d]*)d` with a
greedy star, and equally the non-greedy `(.*?)d`. -/
def splitAtChar (d : Char) : List Char → Option (List Char × List Char)
  | [] => none
  | c :: t =>
    if c = d then some ([], t)
    else (splitAtChar d t).map (fun p => (c :: p.1, p.2))

/-- Exact character comparison. -/
def beqChar (a b : Char) : Bool := a == b

/-- Case-insensitive character comparison (`re.IGNORECASE`; ASCII case
folding, which is all the `UniqueID` literal needs). -/
def ciChar (a b : Char) : Bool := a.toLower == b.toLower

/-- Attempt the pattern `"FIELD"\s*:\s*"([^"]*)"` at the head of `s`.
On success returns the whitespace run before the colon, the run after
it, the captured value and the text after the match. -/
def fieldMatchAt (eqc : Char → Char → Bool) (field s : List Char) :
    Option (List Char × List Char × List Char × List Char) :=
  (matchChar '"' s).bind fun s1 =>
  (matchLits eqc field s1).bind fun s2 =>
  (matchChar '"' s2).bind fun s3 =>
  let w1 := s3.takeWhile isWS
  (matchChar ':' (s3.dropWhile isWS)).bind fun s5 =>
  let w2 := s5.takeWhile isWS
  (matchChar '"' (s5.dropWhile isWS)).bind fun _s7 =>
  (splitAtChar '"' _s7).map fun p => (w1, w2, p.1, p.2)

/-- `re.search` for the field pattern: first match wins, scanning start
positions left to right; returns the captured value (group 1). -/
def searchField (eqc : Char → Char → Bool) (field : List Char) : List Char → Option (List Char)
  | [] => none
  | c :: t =>
    match fieldMatchAt eqc field (c :: t) with
    | some r => some r.2.2.1
    | none => searchField eqc field t

/-- Key `"Name"` (pattern `name_pattern`, exact case). -/
def nameKey : List Char := ['N', 'a', 'm', 'e']

/-- Key `"Description"` (pattern `desc_pattern`, exact case). -/
def descKey : List Char := ['D', 'e', 's', 'c', 'r', 'i', 'p', 't', 'i', 'o', 'n']

/-- Key `"UniqueID"` (pattern `uniqueid_pattern`, `re.IGNORECASE`). -/
def uidKey : List Char := ['U', 'n', 'i', 'q', 'u', 'e', 'I', 'D']

/-- Key `"UpdateKeys"` (pattern `updatekeys_pattern`). -/
def ukKey : List Char := ['U', 'p', 'd', 'a', 't', 'e', 'K', 'e', 'y', 's']

/-- Literal `"Nexus:` of `nexus_pattern`. -/
def nexusKey : List Char := ['N', 'e', 'x', 'u', 's', ':']

lemma matchChar_some {c : Char} {s r : List Char} (h : matchChar c s = some r) :
    s = c :: r := by
  cases s with
  | nil => simp [matchChar] at h
  | cons x t =>
    simp only [matchChar] at h
    split at h
    · cases h; subst ‹x = c›; rfl
    · cases h

lemma matchChar_cons (c : Char) (r : List Char) : matchChar c (c :: r) = some r := by
  simp [matchChar]

lemma matchLits_some {eqc} :
    ∀ {f s r : List Char}, matchLits eqc f s = some r →
      ∃ p, s = p ++ r ∧ matchedL eqc f p = true := by
  intro f
  induction f with
  | nil =>
    intro s r h
    simp only [matchLits] at h
    exact ⟨[], by cases h; simp [matchedL]⟩
  | cons a f ih =>
    intro s r h
    cases s with
    | nil => simp [matchLits] at h
    | cons b t =>
      simp only [matchLits] at h
      split at h
      · obtain ⟨p, hp, hm⟩ := ih h
        exact ⟨b :: p, by simp [hp], by simp [matchedL, hm, ‹eqc a b = true›]⟩
      · cases h

lemma matchedL_matchLits {eqc} :
    ∀ {f p : List Char}, matchedL eqc f p = true →
      ∀ r, matchLits eqc f (p ++ r) = some r := by
  intro f
  induction f with
  | nil =>
    intro p h r
    cases p with
    | nil => simp [matchLits]
    | cons b t => simp [matchedL] at h
  | cons a f ih =>
    intro p h r
    cases p with
    | nil => simp [matchedL] at h
    | cons b t =>
      simp only [matchedL, Bool.and_eq_true] at h
      simp [matchLits, h.1, ih h.2]

lemma matchedL_beq : ∀ {f p : List Char}, matchedL beqChar f p = true ↔ p = f := by
  intro f
  induction f with
  | nil => intro p; cases p <;> simp [matchedL]
  | cons a f ih =>
    intro p
    cases p with
    | nil => simp [matchedL]
    | cons b t => simp [matchedL, beqChar, ih, eq_comm (a := b) (b := a), and_comm]

lemma matchedL_noQuote {eqc : Char → Char → Bool} :
    ∀ {f p : List Char}, (∀ c ∈ f, eqc c '"' = false) →
      matchedL eqc f p = true → noQuote p = true := by
  intro f
  induction f with
  | nil =>
    intro p _ h
    cases p with
    | nil => simp [noQuote]
    | cons b t => simp [matchedL] at h
  | cons a f ih =>
    intro p hq h
    cases p with
    | nil => simp [matchedL] at h
    | cons b t =>
      simp only [matchedL, Bool.and_eq_true] at h
      have hb : b ≠ '"' := by
        intro hbq
        rw [hbq, hq a (List.mem_cons_self a f)] at h
        exact Bool.noConfusion h.1
      have := ih (fun c hc => hq c (List.mem_cons_of_mem a hc)) h.2
      simp only [noQuote, List.all_cons, Bool.and_eq_true] at this ⊢
      exact ⟨by simp [hb], this⟩

lemma splitAtChar_some {d : Char} :
    ∀ {s v r : List Char}, splitAtChar d s = some (v, r) →
      s = v ++ d :: r ∧ v.all (fun c => c != d) = true := by
  intro s
  induction s with
  | nil => intro v r h; simp [splitAtChar] at h
  | cons c t ih =>
    intro v r h
    simp only [splitAtChar] at h
    split at h
    · cases h; subst ‹c = d›; simp
    · cases h2 : splitAtChar d t with
      | none => rw [h2] at h; cases h
      | some p =>
        rw [h2] at h
        cases h
        obtain ⟨h3, h4⟩ := ih h2
        refine ⟨by simp [h3], ?_⟩
        simp only [List.all_cons, Bool.and_eq_true]
        exact ⟨by simp [‹¬ c = d›], h4⟩

lemma splitAtChar_exact {d : Char} :
    ∀ {v : List Char}, v.all (fun c => c != d) = true →
      ∀ r, splitAtChar d (v ++ d :: r) = some (v, r) := by
  intro v
  induction v with
  | nil => intro _ r; simp [splitAtChar]
  | cons c t ih =>
    intro h r
    simp only [List.all_cons, Bool.and_eq_true, bne_iff_ne, ne_eq] at h
    have hih := ih (by simpa [List.all_eq_true, bne_iff_ne] using h.2) r
    simp only [List.cons_append, splitAtChar, if_neg h.1, List.append_eq, hih,
      Option.map_some']

lemma takeWhile_exact {p : Char → Bool} :
    ∀ {w : List Char} {c : Char} {r : List Char}, (∀ x ∈ w, p x = true) → p c = false →
      (w ++ c :: r).takeWhile p = w ∧ (w ++ c :: r).dropWhile p = c :: r := by
  intro w
  induction w with
  | nil =>
    intro c r _ hc
    simp [List.takeWhile, List.dropWhile, hc]
  | cons x t ih =>
    intro c r hw hc
    have hx : p x = true := hw x (List.mem_cons_self x t)
    have h2 := @ih c r (fun y hy => hw y (List.mem_cons_of_mem x hy)) hc
    simp [List.takeWhile, List.dropWhile, hx, h2.1, h2.2]

lemma all_takeWhile {p : Char → Bool} : ∀ l : List Char, ∀ x ∈ l.takeWhile p, p x = true := by
  intro l
  induction l with
  | nil => intro x hx; simp [List.takeWhile] at hx
  | cons c t ih =>
    intro x hx
    by_cases hc : p c = true
    · rw [List.takeWhile_cons, if_pos hc] at hx
      rcases List.mem_cons.mp hx with h | h
      · rwa [h]
      · exact ih x h
    · rw [List.takeWhile_cons, if_neg hc] at hx
      simp at hx

/-- The full characterisation of a successful field-pattern match. -/
lemma fieldMatchAt_some_iff {eqc : Char → Char → Bool} {field s w1 w2 val rest : List Char} :
    fieldMatchAt eqc field s = some (w1, w2, val, rest) ↔
      ∃ p, s = '"' :: (p ++ '"' :: (w1 ++ ':' :: (w2 ++ '"' :: (val ++ '"' :: rest)))) ∧
        matchedL eqc field p = true ∧ (∀ c ∈ w1, isWS c = true) ∧
        (∀ c ∈ w2, isWS c = true) ∧ noQuote val = true := by
  constructor
  · intro h
    unfold fieldMatchAt at h
    cases h1 : matchChar '"' s with
    | none => rw [h1] at h; cases h
    | some s1 =>
      rw [h1, Option.some_bind] at h
      cases h2 : matchLits eqc field s1 with
      | none => rw [h2] at h; cases h
      | some s2 =>
        rw [h2, Option.some_bind] at h
        cases h3 : matchChar '"' s2 with
        | none => rw [h3] at h; cases h
        | some s3 =>
          rw [h3, Option.some_bind] at h
          cases h5 : matchChar ':' (s3.dropWhile isWS) with
          | none => rw [h5] at h; cases h
          | some s5 =>
            rw [h5, Option.some_bind] at h
            cases h7 : matchChar '"' (s5.dropWhile isWS) with
            | none => rw [h7] at h; cases h
            | some s7 =>
              rw [h7, Option.some_bind] at h
              cases h8 : splitAtChar '"' s7 with
              | none => rw [h8] at h; cases h
              | some pr =>
                rw [h8, Option.map_some'] at h
                cases h
                obtain ⟨p, hp, hm⟩ := matchLits_some h2
                obtain ⟨h9, h10⟩ := splitAtChar_some h8
                have e1 : s = '"' :: s1 := matchChar_some h1
                have e3 : s2 = '"' :: s3 := matchChar_some h3
                have e5 : s3.dropWhile isWS = ':' :: s5 := matchChar_some h5
                have e7 : s5.dropWhile isWS = '"' :: s7 := matchChar_some h7
                have d3 : s3 = s3.takeWhile isWS ++ ':' :: s5 := by
                  conv_lhs => rw [← List.takeWhile_append_dropWhile (p := isWS) (l := s3)]
                  rw [e5]
                have d5 : s5 = s5.takeWhile isWS ++ '"' :: s7 := by
                  conv_lhs => rw [← List.takeWhile_append_dropWhile (p := isWS) (l := s5)]
                  rw [e7]
                rw [h9] at d5
                rw [d5] at d3
                refine ⟨p, ?_, hm, all_takeWhile s3, all_takeWhile s5, h10⟩
                rw [e1, hp, e3]
                conv_lhs => rw [d3]
  · rintro ⟨p, hs, hm, hw1, hw2, hval⟩
    have t1 : (w1 ++ ':' :: (w2 ++ '"' :: (val ++ '"' :: rest))).takeWhile isWS = w1 ∧
        (w1 ++ ':' :: (w2 ++ '"' :: (val ++ '"' :: rest))).dropWhile isWS =
          ':' :: (w2 ++ '"' :: (val ++ '"' :: rest)) :=
      takeWhile_exact hw1 (by decide)
    have t2 : (w2 ++ '"' :: (val ++ '"' :: rest)).takeWhile isWS = w2 ∧
        (w2 ++ '"' :: (val ++ '"' :: rest)).dropWhile isWS = '"' :: (val ++ '"' :: rest) :=
      takeWhile_exact hw2 (by decide)
    have hv : val.all (fun c => c != '"') = true := hval
    unfold fieldMatchAt
    rw [hs, matchChar_cons, Option.some_bind, matchedL_matchLits hm, Option.some_bind,
      matchChar_cons, Option.some_bind, t1.2, matchChar_cons, Option.some_bind,
      t2.2, matchChar_cons, Option.some_bind, splitAtChar_exact hv rest, Option.map_some']
    rw [t1.1, t2.1]

/-- A successful match consumes at least the surrounding quotes, so the
remainder is strictly shorter: the bound the rewriting recursions need. -/
lemma fieldMatchAt_rest_length {eqc : Char → Char → Bool} {field s w1 w2 val rest : List Char}
    (h : fieldMatchAt eqc field s = some (w1, w2, val, rest)) :
    rest.length < s.length := by
  obtain ⟨p, hs, -⟩ := fieldMatchAt_some_iff.mp h
  subst hs
  simp only [List.length_cons, List.length_append]
  omega

/-- `re.sub(r'("FIELD"\s*:\s*")[^"]*(")', repl, content)`: rewrite every
non-overlapping match, left to right.  `ins` is the processed insertion
text; `keep1` tells whether the replacement template kept the group-1
backreference (the key, whitespace, colon and opening quote) — Python
drops it when the template's `\1` is swallowed by an octal escape.  The
group-2 backreference (the closing quote) is always emitted. -/
def subFieldA (field ins : List Char) (keep1 : Bool) : Nat → List Char → List Char
  | _, [] => []
  | 0, s => s
  | fuel + 1, c :: t =>
    match fieldMatchAt beqChar field (c :: t) with
    | some r =>
      (if keep1 then '"' :: (field ++ '"' :: (r.1 ++ ':' :: (r.2.1 ++ ['"']))) else []) ++
      (ins ++ '"' :: subFieldA field ins keep1 fuel r.2.2.2)
    | none => c :: subFieldA field ins keep1 fuel t

/-- The substitution itself: the fuel `s.length` never runs out, since
every step consumes at least one character. -/
def subField (field ins : List Char) (keep1 : Bool) (s : List Char) : List Char :=
  subFieldA field ins keep1 s.length s

lemma subFieldA_fuel (field ins : List Char) (keep1 : Bool) :
    ∀ f1 : Nat, ∀ {s : List Char}, s.length ≤ f1 → ∀ f2, s.length ≤ f2 →
      subFieldA field ins keep1 f1 s = subFieldA field ins keep1 f2 s := by
  intro f1
  induction f1 with
  | zero =>
    intro s h f2 _
    have : s = [] := List.length_eq_zero.mp (Nat.le_zero.mp h)
    subst this
    cases f2 <;> rfl
  | succ f1 ih =>
    intro s h f2 h2
    cases s with
    | nil => cases f2 <;> rfl
    | cons c t =>
      cases f2 with
      | zero => simp at h2
      | succ f2 =>
        simp only [List.length_cons] at h h2
        show subFieldA field ins keep1 (f1 + 1) (c :: t) =
          subFieldA field ins keep1 (f2 + 1) (c :: t)
        cases hm : fieldMatchAt beqChar field (c :: t) with
        | some r =>
          obtain ⟨w1, w2, val, rest⟩ := r
          have hr := fieldMatchAt_rest_length hm
          simp only [List.length_cons] at hr
          simp only [subFieldA, hm]
          rw [ih (s := rest) (by omega) f2 (by omega)]
        | none =>
          simp only [subFieldA, hm]
          rw [ih (s := t) (by omega) f2 (by omega)]

lemma subField_nil (field ins : List Char) (keep1 : Bool) :
    subField field ins keep1 [] = [] := rfl

lemma subField_cons (field ins : List Char) (keep1 : Bool) (c : Char) (t : List Char) :
    subField field ins keep1 (c :: t) =
      match fieldMatchAt beqChar field (c :: t) with
      | some r =>
        (if keep1 then '"' :: (field ++ '"' :: (r.1 ++ ':' :: (r.2.1 ++ ['"']))) else []) ++
        (ins ++ '"' :: subField field ins keep1 r.2.2.2)
      | none => c :: subField field ins keep1 t := by
  show subFieldA field ins keep1 (t.length + 1) (c :: t) = _
  cases hm : fieldMatchAt beqChar field (c :: t) with
  | some r =>
    obtain ⟨w1, w2, val, rest⟩ := r
    have hr := fieldMatchAt_rest_length hm
    simp only [List.length_cons] at hr
    simp only [subFieldA, hm]
    rw [subFieldA_fuel field ins keep1 t.length (s := rest) (by omega) rest.length (by omega)]
    rfl
  | none =>
    simp only [subFieldA, hm]
    rfl

/-- The decomposition of a text into the chunks `re.sub` scans: literal
characters, and matches of the field pattern (whitespace runs and value
of each). -/
def fieldChunksA (field : List Char) : Nat → List Char →
    List (Char ⊕ (List Char × List Char × List Char))
  | _, [] => []
  | 0, _ => []
  | fuel + 1, c :: t =>
    match fieldMatchAt beqChar field (c :: t) with
    | some r => Sum.inr (r.1, r.2.1, r.2.2.1) :: fieldChunksA field fuel r.2.2.2
    | none => Sum.inl c :: fieldChunksA field fuel t

/-- The chunk decomposition itself (fuel `s.length` always suffices). -/
def fieldChunks (field s : List Char) : List (Char ⊕ (List Char × List Char × List Char)) :=
  fieldChunksA field s.length s

lemma fieldChunksA_fuel (field : List Char) :
    ∀ f1 : Nat, ∀ {s : List Char}, s.length ≤ f1 → ∀ f2, s.length ≤ f2 →
      fieldChunksA field f1 s = fieldChunksA field f2 s := by
  intro f1
  induction f1 with
  | zero =>
    intro s h f2 _
    have : s = [] := List.length_eq_zero.mp (Nat.le_zero.mp h)
    subst this
    cases f2 <;> rfl
  | succ f1 ih =>
    intro s h f2 h2
    cases s with
    | nil => cases f2 <;> rfl
    | cons c t =>
      cases f2 with
      | zero => simp at h2
      | succ f2 =>
        simp only [List.length_cons] at h h2
        show fieldChunksA field (f1 + 1) (c :: t) = fieldChunksA field (f2 + 1) (c :: t)
        cases hm : fieldMatchAt beqChar field (c :: t) with
        | some r =>
          obtain ⟨w1, w2, val, rest⟩ := r
          have hr := fieldMatchAt_rest_length hm
          simp only [List.length_cons] at hr
          simp only [fieldChunksA, hm]
          rw [ih (s := rest) (by omega) f2 (by omega)]
        | none =>
          simp only [fieldChunksA, hm]
          rw [ih (s := t) (by omega) f2 (by omega)]

lemma fieldChunks_nil (field : List Char) : fieldChunks field [] = [] := rfl

lemma fieldChunks_cons (field : List Char) (c : Char) (t : List Char) :
    fieldChunks field (c :: t) =
      match fieldMatchAt beqChar field (c :: t) with
      | some r => Sum.inr (r.1, r.2.1, r.2.2.1) :: fieldChunks field r.2.2.2
      | none => Sum.inl c :: fieldChunks field t := by
  show fieldChunksA field (t.length + 1) (c :: t) = _
  cases hm : fieldMatchAt beqChar field (c :: t) with
  | some r =>
    obtain ⟨w1, w2, val, rest⟩ := r
    have hr := fieldMatchAt_rest_length hm
    simp only [List.length_cons] at hr
    simp only [fieldChunksA, hm]
    rw [fieldChunksA_fuel field t.length (s := rest) (by omega) rest.length (by omega)]
    rfl
  | none =>
    simp only [fieldChunksA, hm]
    rfl

/-- Rebuild the original text from its chunks. -/
def renderOrig (field : List Char) : List (Char ⊕ (List Char × List Char × List Char)) → List Char
  | [] => []
  | Sum.inl c :: t => c :: renderOrig field t
  | Sum.inr r :: t =>
    '"' :: (field ++ '"' :: (r.1 ++ ':' :: (r.2.1 ++ '"' :: (r.2.2 ++ '"' :: renderOrig field t))))

/-- Rebuild the substituted text from the chunks: every match's value is
replaced by the insertion text, everything else is kept. -/
def renderSub (field ins : List Char) (keep1 : Bool) :
    List (Char ⊕ (List Char × List Char × List Char)) → List Char
  | [] => []
  | Sum.inl c :: t => c :: renderSub field ins keep1 t
  | Sum.inr r :: t =>
    (if keep1 then '"' :: (field ++ '"' :: (r.1 ++ ':' :: (r.2.1 ++ ['"']))) else []) ++
    (ins ++ '"' :: renderSub field ins keep1 t)

/-- Octal digit (for the replacement template's octal-escape rule). -/
def isOct (c : Char) : Bool := 48 ≤ c.toNat && c.toNat ≤ 55

/-- The escaping step of the restore script, faithful to the two
sequential `str.replace` calls: every backslash becomes a double
backslash first, then every double quote becomes backslash-quote. -/
def replOne (a : Char) (r : List Char) : List Char → List Char
  | [] => []
  | c :: t => (if c = a then r else [c]) ++ replOne a r t

/-- `value.replace('\\', '\\\\').replace('"', '\\"')`. -/
def escapeValue (v : List Char) : List Char :=
  replOne '"' ['\\', '"'] (replOne '\\' ['\\', '\\'] v)

/-- Prefix every quote with a backslash, leaving all else (including
backslashes) alone. -/
def qEsc : List Char → List Char
  | [] => []
  | c :: t => if c = '"' then '\\' :: '"' :: qEsc t else c :: qEsc t

/-- What CPython's `re` makes of the replacement template
`r'\1' + escapeValue v + r'\2'`.  In the escaped text every backslash
precedes another backslash or a quote, so template parsing collapses
`\\` back to `\` and keeps `\"` verbatim: the net insertion is `v` with
each quote prefixed by a backslash.  Two corner cases are inherited from
the parser's handling of `\1` followed by digits of the value:
* value starts with two octal digits `d1 d2`: the template begins with
  the three-digit octal escape `\1d1d2`, so the group-1 backreference is
  consumed (the key text is dropped from the replacement) and the
  character `chr(0o1d1d2)` is emitted instead;
* value starts with a digit but not two octal digits: the parser reads a
  two-digit group reference (group 10..19), which does not exist, and
  `re.sub` raises `error: invalid group reference` — modelled as `none`.
Returns `(keep group 1?, inserted text)`. -/
def substValue (v : List Char) : Option (Bool × List Char) :=
  match v with
  | [] => some (true, [])
  | c :: rest =>
    if c.isDigit then
      match rest with
      | c2 :: rest2 =>
        if isOct c && isOct c2 then
          some (false, Char.ofNat (64 + 8 * (c.toNat - 48) + (c2.toNat - 48)) :: qEsc rest2)
        else none
      | [] => none
    else some (true, qEsc v)

/-- The restore script's per-field update (lines 111-118 and 121-127 of
RestoreChineseTranslations.py): escape the value, and only if
`re.search` finds the field pattern run `re.sub` and report a change;
`none` models the exception `re.sub` raises on a digit-leading value
(caught by the per-file handler, failing the whole file). -/
def patchOne (field v content : List Char) : Option (List Char × Bool) :=
  if (searchField beqChar field content).isSome then
    match substValue v with
    | some kp => some (subField field kp.2 kp.1 content, true)
    | none => none
  else some (content, false)

/-- Scan for the closing `*/` of a block comment; returns the text after
it (the non-greedy `.*?` stops at the first one). -/
def findClose : List Char → Option (List Char)
  | [] => none
  | [_] => none
  | a :: b :: t => if a = '*' ∧ b = '/' then some t else findClose (b :: t)

lemma findClose_length : ∀ s r : List Char, findClose s = some r → r.length < s.length := by
  intro s
  induction s with
  | nil => intro r h; simp [findClose] at h
  | cons a t ih =>
    intro r h
    cases t with
    | nil => simp [findClose] at h
    | cons b t2 =>
      simp only [findClose] at h
      split at h
      · cases h
        simp only [List.length_cons]
        omega
      · exact Nat.lt_succ_of_lt (ih r h)

lemma length_dropWhile_le (p : Char → Bool) :
    ∀ l : List Char, (l.dropWhile p).length ≤ l.length := by
  intro l
  induction l with
  | nil => simp [List.dropWhile]
  | cons c t ih =>
    rw [List.dropWhile_cons]
    split
    · exact Nat.le_succ_of_le ih
    · simp

/-- `re.sub(r'/\*.*?\*/', '', content, flags=re.DOTALL)`: remove every
block comment, each ending at the first `*/` after its `/*`; a `/*`
with no closing `*/` matches nothing and scanning moves on. -/
def stripBlockA : Nat → List Char → List Char
  | _, [] => []
  | _, [c] => [c]
  | 0, s => s
  | fuel + 1, a :: b :: t =>
    if a = '/' ∧ b = '*' then
      match findClose t with
      | some r => stripBlockA fuel r
      | none => a :: stripBlockA fuel (b :: t)
    else a :: stripBlockA fuel (b :: t)

/-- The block-comment removal itself (fuel `s.length` always suffices). -/
def stripBlock (s : List Char) : List Char := stripBlockA s.length s

lemma stripBlockA_fuel :
    ∀ f1 : Nat, ∀ {s : List Char}, s.length ≤ f1 + 1 → ∀ f2, s.length ≤ f2 + 1 →
      stripBlockA f1 s = stripBlockA f2 s := by
  intro f1
  induction f1 with
  | zero =>
    intro s h f2 _
    match s with
    | [] => cases f2 <;> rfl
    | [c] => cases f2 <;> rfl
    | a :: b :: t => simp at h
  | succ f1 ih =>
    intro s h f2 h2
    match s with
    | [] => cases f2 <;> rfl
    | [c] => cases f2 <;> rfl
    | a :: b :: t =>
      simp only [List.length_cons] at h h2
      cases f2 with
      | zero => omega
      | succ f2 =>
        show stripBlockA (f1 + 1) (a :: b :: t) = stripBlockA (f2 + 1) (a :: b :: t)
        simp only [stripBlockA]
        split
        · cases hf : findClose t with
          | some r =>
            have := findClose_length t r hf
            dsimp only
            rw [ih (s := r) (by omega) f2 (by omega)]
          | none =>
            dsimp only
            rw [ih (s := b :: t) (by simp only [List.length_cons]; omega) f2
              (by simp only [List.length_cons]; omega)]
        · rw [ih (s := b :: t) (by simp only [List.length_cons]; omega) f2
            (by simp only [List.length_cons]; omega)]

lemma stripBlock_nil : stripBlock [] = [] := rfl

lemma stripBlock_one (c : Char) : stripBlock [c] = [c] := rfl

lemma stripBlock_cons2 (a b : Char) (t : List Char) :
    stripBlock (a :: b :: t) =
      if a = '/' ∧ b = '*' then
        match findClose t with
        | some r => stripBlock r
        | none => a :: stripBlock (b :: t)
      else a :: stripBlock (b :: t) := by
  show stripBlockA (t.length + 1 + 1) (a :: b :: t) = _
  simp only [stripBlockA]
  split
  · cases hf : findClose t with
    | some r =>
      have := findClose_length t r hf
      dsimp only
      rw [stripBlockA_fuel (t.length + 1) (s := r) (by omega) r.length (by omega)]
      rfl
    | none =>
      dsimp only
      rfl
  · rfl

/-- `re.sub(r'//.*?$', '', content, flags=re.MULTILINE)`: from each `//`
drop everything up to (not including) the next newline or end of text. -/
def stripLineA : Nat → List Char → List Char
  | _, [] => []
  | _, [c] => [c]
  | 0, s => s
  | fuel + 1, a :: b :: t =>
    if a = '/' ∧ b = '/' then stripLineA fuel (t.dropWhile (fun c => c != '\n'))
    else a :: stripLineA fuel (b :: t)

/-- The line-comment removal itself (fuel `s.length` always suffices). -/
def stripLine (s : List Char) : List Char := stripLineA s.length s

lemma stripLineA_fuel :
    ∀ f1 : Nat, ∀ {s : List Char}, s.length ≤ f1 + 1 → ∀ f2, s.length ≤ f2 + 1 →
      stripLineA f1 s = stripLineA f2 s := by
  intro f1
  induction f1 with
  | zero =>
    intro s h f2 _
    match s with
    | [] => cases f2 <;> rfl
    | [c] => cases f2 <;> rfl
    | a :: b :: t => simp at h
  | succ f1 ih =>
    intro s h f2 h2
    match s with
    | [] => cases f2 <;> rfl
    | [c] => cases f2 <;> rfl
    | a :: b :: t =>
      simp only [List.length_cons] at h h2
      cases f2 with
      | zero => omega
      | succ f2 =>
        show stripLineA (f1 + 1) (a :: b :: t) = stripLineA (f2 + 1) (a :: b :: t)
        simp only [stripLineA]
        split
        · have := length_dropWhile_le (fun c => c != '\n') t
          rw [ih (s := t.dropWhile (fun c => c != '\n')) (by omega) f2 (by omega)]
        · rw [ih (s := b :: t) (by simp only [List.length_cons]; omega) f2
            (by simp only [List.length_cons]; omega)]

lemma stripLine_nil : stripLine [] = [] := rfl

lemma stripLine_one (c : Char) : stripLine [c] = [c] := rfl

lemma stripLine_cons2 (a b : Char) (t : List Char) :
    stripLine (a :: b :: t) =
      if a = '/' ∧ b = '/' then stripLine (t.dropWhile (fun c => c != '\n'))
      else a :: stripLine (b :: t) := by
  show stripLineA (t.length + 1 + 1) (a :: b :: t) = _
  simp only [stripLineA]
  split
  · have := length_dropWhile_le (fun c => c != '\n') t
    rw [stripLineA_fuel (t.length + 1) (s := t.dropWhile (fun c => c != '\n')) (by omega)
      ((t.dropWhile (fun c => c != '\n')).length) (by omega)]
    rfl
  · rfl

/-- Comment stripping as the extract script performs it: block comments
first, then line comments (lines 79-81). -/
def stripComments (s : List Char) : List Char := stripLine (stripBlock s)

/-- Attempt `"UpdateKeys"\s*:\s*\[(.*?)\]` (DOTALL) at the head: the
capture runs to the first `]` after the `[`. -/
def matchUKAt (s : List Char) : Option (List Char) :=
  (matchChar '"' s).bind fun s1 =>
  (matchLits beqChar ukKey s1).bind fun s2 =>
  (matchChar '"' s2).bind fun s3 =>
  (matchChar ':' (s3.dropWhile isWS)).bind fun s5 =>
  (matchChar '[' (s5.dropWhile isWS)).bind fun s7 =>
  (splitAtChar ']' s7).map fun p => p.1

/-- `updatekeys_pattern.search`: first match of the array capture. -/
def searchUK : List Char → Option (List Char)
  | [] => none
  | c :: t =>
    match matchUKAt (c :: t) with
    | some r => some r
    | none => searchUK t

/-- Attempt `"Nexus:(\d+)"` at the head: the greedy digit run must be
non-empty and be followed by the closing quote. -/
def matchNexusAt (s : List Char) : Option (List Char) :=
  (matchChar '"' s).bind fun s1 =>
  (matchLits beqChar nexusKey s1).bind fun (s2 : List Char) =>
  let ds := s2.takeWhile Char.isDigit
  if ds.isEmpty then none
  else (matchChar '"' (s2.dropWhile Char.isDigit)).map fun _ => ds

/-- `nexus_pattern.search` inside the captured array text. -/
def searchNexus : List Char → Option (List Char)
  | [] => none
  | c :: t =>
    match matchNexusAt (c :: t) with
    | some r => some r
    | none => searchNexus t

/-- The fixed Nexus URL head the script formats the mod id into. -/
def urlHead : List Char :=
  ['h','t','t','p','s',':','/','/','w','w','w','.','n','e','x','u','s','m','o','d','s',
   '.','c','o','m','/','s','t','a','r','d','e','w','v','a','l','l','e','y','/','m','o',
   'd','s','/']

/-- CJK check `[一-鿿]` of `chinese_pattern`. -/
def isCJK (c : Char) : Bool := 0x4e00 ≤ c.toNat && c.toNat ≤ 0x9fff

/-- `chinese_pattern.search(s)` succeeds. -/
def chineseSearch (s : List Char) : Bool := s.any isCJK

/-- Python truthiness of an optional string: `None` and the empty string
are falsy. -/
def truthyStr : Option (List Char) → Bool
  | some v => !v.isEmpty
  | none => false

/-- The `is_chinese` computation (lines 110-114 of the extract script):
set when a truthy name contains a CJK character, or a truthy
description does. -/
def chineseFlag (name description : Option (List Char)) : Bool :=
  (match name with
   | some n => !n.isEmpty && chineseSearch n
   | none => false) ||
  (match description with
   | some d => !d.isEmpty && chineseSearch d
   | none => false)

/-- One record of the aggregate file (a value of `translations_data`). -/
structure ModRecord where
  uniqueID : List Char
  name : Option (List Char)
  description : Option (List Char)
  path : List Char
  isChinese : Bool
  nurl : Option (List Char)
deriving DecidableEq

/-- The field extraction of the scan script (lines 77-114): strip
comments, search each pattern in the stripped text, fall back to the
containing folder name when `UniqueID` is missing or empty, format the
Nexus URL, and derive the CJK flag. -/
def extractRecord (modFolder relPath raw : List Char) : ModRecord :=
  let content := stripComments raw
  let name := searchField beqChar nameKey content
  let description := searchField beqChar descKey content
  let uidM := searchField ciChar uidKey content
  let uniqueID :=
    match uidM with
    | some u => if u.isEmpty then modFolder else u
    | none => modFolder
  let nurl := (searchUK content).bind fun span =>
    (searchNexus span).map fun ds => urlHead ++ ds
  { uniqueID := uniqueID
    name := name
    description := description
    path := relPath
    isChinese := chineseFlag name description
    nurl := nurl }

/-- One discovered manifest as the scan loop sees it: the folder name,
the directory path relative to the root, and the decoded file text. -/
structure ScanInput where
  folder : List Char
  relPath : List Char
  raw : List Char

/-- Python dict assignment `translations_data[relative_path] = {...}`:
replace in place or append. -/
def insertKV (store : List (List Char × ModRecord)) (k : List Char) (r : ModRecord) :
    List (List Char × ModRecord) :=
  match store with
  | [] => [(k, r)]
  | p :: t => if p.1 = k then (k, r) :: t else p :: insertKV t k r

/-- Association lookup in the store. -/
def lookupKV (store : List (List Char × ModRecord)) (k : List Char) : Option ModRecord :=
  match store with
  | [] => none
  | p :: t => if p.1 = k then some p.2 else lookupKV t k

/-- One iteration of the scan loop (lines 116-133): insert the record
keyed by the relative path only when the extracted name or description
is truthy; otherwise count it as a no-content case and skip. -/
def scanStep (store : List (List Char × ModRecord)) (inp : ScanInput) :
    List (List Char × ModRecord) :=
  let r := extractRecord inp.folder inp.relPath inp.raw
  if truthyStr r.name || truthyStr r.description then insertKV store inp.relPath r
  else store

/-- The scan loop over a list of discovered manifests, building
`translations_data` from an initial store. -/
def runScanFrom (store : List (List Char × ModRecord)) : List ScanInput →
    List (List Char × ModRecord)
  | [] => store
  | inp :: rest => runScanFrom (scanStep store inp) rest

/-- The whole scan: the loop started from the empty dict. -/
def runScan (inputs : List ScanInput) : List (List Char × ModRecord) :=
  runScanFrom [] inputs

/-- The per-record patching step of the restore script (lines 108-128):
patch `Name` when the stored value is truthy, then `Description` on the
result, and report whether either patch changed something.  `none`
models an exception escaping to the per-file handler (the file is then
not written). -/
def restoreFields (name description : Option (List Char)) (content : List Char) :
    Option (List Char × Bool) :=
  (match name with
   | some v => if v.isEmpty then some (content, false) else patchOne nameKey v content
   | none => some (content, false)).bind fun (s1 : List Char × Bool) =>
  (match description with
   | some v => if v.isEmpty then some (s1.1, false) else patchOne descKey v s1.1
   | none => some (s1.1, false)).map fun (s2 : List Char × Bool) => (s2.1, s1.2 || s2.2)

/-- The restore step applied to a stored record: only its `Name` and
`Description` fields are ever consulted. -/
def restoreRecord (r : ModRecord) (content : List Char) : Option (List Char × Bool) :=
  restoreFields r.name r.description content

/-- A byte, for the encoding reader. -/
abbrev Byte := Fin 256

/-- Is a UTF-8 continuation byte. -/
def isContB (b : Byte) : Bool := 0x80 ≤ b.val && b.val ≤ 0xbf

/-- Strict UTF-8 decoding to a list of code points (CPython's `utf-8`
codec: rejects invalid leads, overlong forms, surrogates and values
above U+10FFFF; raises `UnicodeDecodeError` otherwise, modelled as
`none`). -/
def decodeUtf8 : List Byte → Option (List Nat)
  | [] => some []
  | b :: t =>
    if b.val ≤ 0x7f then (decodeUtf8 t).map (b.val :: ·)
    else if b.val ≤ 0xc1 then none
    else if b.val ≤ 0xdf then
      match t with
      | c1 :: t1 =>
        if isContB c1 then (decodeUtf8 t1).map (((b.val - 0xc0) * 0x40 + (c1.val - 0x80)) :: ·)
        else none
      | [] => none
    else if b.val ≤ 0xef then
      match t with
      | c1 :: c2 :: t2 =>
        if (if b.val = 0xe0 then (decide (0xa0 ≤ c1.val) && decide (c1.val ≤ 0xbf))
            else if b.val = 0xed then (decide (0x80 ≤ c1.val) && decide (c1.val ≤ 0x9f))
            else isContB c1) && isContB c2 then
          (decodeUtf8 t2).map
            (((b.val - 0xe0) * 0x1000 + (c1.val - 0x80) * 0x40 + (c2.val - 0x80)) :: ·)
        else none
      | _ => none
    else if b.val ≤ 0xf4 then
      match t with
      | c1 :: c2 :: c3 :: t3 =>
        if (if b.val = 0xf0 then (decide (0x90 ≤ c1.val) && decide (c1.val ≤ 0xbf))
            else if b.val = 0xf4 then (decide (0x80 ≤ c1.val) && decide (c1.val ≤ 0x8f))
            else isContB c1) && isContB c2 && isContB c3 then
          (decodeUtf8 t3).map
            (((b.val - 0xf0) * 0x40000 + (c1.val - 0x80) * 0x1000 +
              (c2.val - 0x80) * 0x40 + (c3.val - 0x80)) :: ·)
        else none
      | _ => none
    else none

/-- The `utf-8-sig` codec: drop a leading byte-order mark, then UTF-8. -/
def decodeUtf8Sig (l : List Byte) : Option (List Nat) :=
  decodeUtf8 (if l.take 3 = [(0xef : Byte), 0xbb, 0xbf] then l.drop 3 else l)

/-- The `latin-1` codec: every byte maps to the code point of its own
value, so decoding is total. -/
def decodeLatin1 (l : List Byte) : List Nat := l.map Fin.val

/-- The encoding reader of both scripts (lines 65-75 / 74-84): try
`utf-8`, then `utf-8-sig`, then `latin-1`, returning the first
success. -/
def readManifestText (l : List Byte) : Option (List Nat) :=
  match decodeUtf8 l with
  | some s => some s
  | none =>
    match decodeUtf8Sig l with
    | some s => some s
    | none => some (decodeLatin1 l)

/-- Is the segment between a key's closing quote and its value's opening
quote, i.e. the language of `\s*:\s*`. -/
def wcw (s : List Char) : Bool :=
  match s.dropWhile isWS with
  | c :: r => c == ':' && r.all isWS
  | [] => false

/-- Decompose a text at its quote characters: the quote-free text before
the first quote, and one quote-free segment after each quote. -/
def splitQuotes : List Char → List Char × List (List Char)
  | [] => ([], [])
  | c :: t =>
    let p := splitQuotes t
    if c = '"' then ([], p.1 :: p.2) else (c :: p.1, p.2)

/-- Re-emit segments, one quote before each. -/
def flatQ : List (List Char) → List Char
  | [] => []
  | s :: t => '"' :: (s ++ flatQ t)

/-- Rebuild a text from its quote decomposition. -/
def renderQ (s0 : List Char) (segs : List (List Char)) : List Char := s0 ++ flatQ segs

/-- The field substitution viewed on the quote decomposition.  A match
sits at four consecutive segments: the key, a `\s*:\s*` segment, the
value (replaced by `v`) and the segment holding the closing quote; the
scan then resumes after the match, whose first candidate quote is the
one of the fifth segment on. -/
def subSegs (field v : List Char) : List (List Char) → List (List Char)
  | k :: m :: val :: s3 :: rest =>
    if matchedL beqChar field k && wcw m then k :: m :: v :: s3 :: subSegs field v rest
    else k :: subSegs field v (m :: val :: s3 :: rest)
  | l => l

/-- The field search viewed on the quote decomposition. -/
def searchSegs (eqc : Char → Char → Bool) (field : List Char) :
    List (List Char) → Option (List Char)
  | k :: m :: val :: s3 :: rest =>
    if matchedL eqc field k && wcw m then some val
    else searchSegs eqc field (m :: val :: s3 :: rest)
  | _ => none

/-- Does the two-character sequence `a b` occur in the list. -/
def hasPair (a b : Char) : List Char → Bool
  | x :: y :: t => (x = a && y = b) || hasPair a b (y :: t)
  | _ => false

/-- A value the replacement template handles without mangling: empty or
not starting with a decimal digit (see `substValue`). -/
def saneStart (v : List Char) : Bool :=
  match v with
  | [] => true
  | c :: _ => !c.isDigit

/-- Separator segment `: ` of the canonical manifest shape. -/
def sepColon : List Char := [':', ' ']

/-- Separator segment `, ` of the canonical manifest shape. -/
def sepComma : List Char := [',', ' ']

/-- Separator segment `: [` opening the UpdateKeys array. -/
def sepColBr : List Char := [':', ' ', '[']

/-- Closing segment `]` of the canonical manifest shape. -/
def sepEnd : List Char := [']']

/-- The quote segments of a canonical manifest with Name `n`,
Description `d`, UniqueID `u` and UpdateKeys `["Nexus:num"]`. -/
def tempSegs (n d u num : List Char) : List (List Char) :=
  [nameKey, sepColon, n, sepComma, descKey, sepColon, d, sepComma, uidKey, sepColon, u,
   sepComma, ukKey, sepColBr, nexusKey ++ num, sepEnd]

/-- A canonical manifest text,
`"Name": "n", "Description": "d", "UniqueID": "u", "UpdateKeys": ["Nexus:num"]`. -/
def manifestT (n d u num : List Char) : List Char := renderQ [] (tempSegs n d u num)

lemma noQuote_iff {s : List Char} : noQuote s = true ↔ ∀ c ∈ s, c ≠ '"' := by
  simp [noQuote, List.all_eq_true]

lemma ws_not_quote {c : Char} (h : isWS c = true) : c ≠ '"' := by
  intro he
  subst he
  exact Bool.noConfusion h

lemma noQuote_mid {w1 w2 : List Char} (h1 : ∀ c ∈ w1, isWS c = true)
    (h2 : ∀ c ∈ w2, isWS c = true) : noQuote (w1 ++ ':' :: w2) = true := by
  rw [noQuote_iff]
  intro c hc
  rcases List.mem_append.mp hc with h | h
  · exact ws_not_quote (h1 c h)
  · rcases List.mem_cons.mp h with h | h
    · subst h; decide
    · exact ws_not_quote (h2 c h)

lemma renderQ_splitQuotes : ∀ s : List Char, renderQ (splitQuotes s).1 (splitQuotes s).2 = s := by
  intro s
  induction s with
  | nil => rfl
  | cons c t ih =>
    unfold renderQ at ih ⊢
    by_cases hc : c = '"'
    · subst hc
      have h1 : splitQuotes ('"' :: t) = ([], (splitQuotes t).1 :: (splitQuotes t).2) := by
        simp [splitQuotes]
      rw [h1]
      simp only [flatQ, List.nil_append]
      rw [ih]
    · have h1 : splitQuotes (c :: t) = (c :: (splitQuotes t).1, (splitQuotes t).2) := by
        simp [splitQuotes, if_neg hc]
      rw [h1]
      simp only [List.cons_append]
      rw [ih]

lemma splitQuotes_nq : ∀ s : List Char,
    noQuote (splitQuotes s).1 = true ∧ ∀ x ∈ (splitQuotes s).2, noQuote x = true := by
  intro s
  induction s with
  | nil => exact ⟨rfl, by simp [splitQuotes]⟩
  | cons c t ih =>
    by_cases hc : c = '"'
    · subst hc
      simp only [splitQuotes, if_pos rfl]
      refine ⟨rfl, ?_⟩
      intro x hx
      rcases List.mem_cons.mp hx with h | h
      · subst h; exact ih.1
      · exact ih.2 x h
    · simp only [splitQuotes, if_neg hc]
      refine ⟨?_, ih.2⟩
      rw [noQuote_iff]
      intro y hy
      rcases List.mem_cons.mp hy with h | h
      · subst h; exact hc
      · exact noQuote_iff.mp ih.1 y h

lemma splitQuotes_of_noQuote : ∀ {s : List Char}, noQuote s = true →
    splitQuotes s = (s, []) := by
  intro s
  induction s with
  | nil => intro _; rfl
  | cons c t ih =>
    intro h
    rw [noQuote_iff] at h
    have hc : c ≠ '"' := h c (List.mem_cons_self c t)
    have ht := ih (noQuote_iff.mpr fun y hy => h y (List.mem_cons_of_mem c hy))
    simp [splitQuotes, if_neg hc, ht]

lemma splitQuotes_append_quote : ∀ {s0 : List Char}, noQuote s0 = true → ∀ t : List Char,
    splitQuotes (s0 ++ '"' :: t) = (s0, (splitQuotes t).1 :: (splitQuotes t).2) := by
  intro s0
  induction s0 with
  | nil => intro _ t; simp [splitQuotes]
  | cons c s ih =>
    intro h t
    rw [noQuote_iff] at h
    have hc : c ≠ '"' := h c (List.mem_cons_self c s)
    have ht := ih (noQuote_iff.mpr fun y hy => h y (List.mem_cons_of_mem c hy)) t
    simp [splitQuotes, if_neg hc, ht]

lemma splitQuotes_renderQ : ∀ (segs : List (List Char)) (s0 : List Char),
    noQuote s0 = true → (∀ x ∈ segs, noQuote x = true) →
    splitQuotes (renderQ s0 segs) = (s0, segs) := by
  intro segs
  induction segs with
  | nil =>
    intro s0 h0 _
    simp only [renderQ, flatQ, List.append_nil]
    exact splitQuotes_of_noQuote h0
  | cons x segs ih =>
    intro s0 h0 hall
    have hx : noQuote x = true := hall x (List.mem_cons_self x segs)
    have hsegs : ∀ y ∈ segs, noQuote y = true := fun y hy => hall y (List.mem_cons_of_mem x hy)
    have := ih x hx hsegs
    simp only [renderQ, flatQ] at this ⊢
    rw [splitQuotes_append_quote h0, this]

lemma wcw_iff {s : List Char} : wcw s = true ↔
    ∃ w1 w2, s = w1 ++ ':' :: w2 ∧ (∀ c ∈ w1, isWS c = true) ∧ (∀ c ∈ w2, isWS c = true) := by
  constructor
  · intro h
    unfold wcw at h
    cases hd : s.dropWhile isWS with
    | nil => rw [hd] at h; cases h
    | cons c r =>
      rw [hd] at h
      simp only [Bool.and_eq_true, beq_iff_eq] at h
      obtain ⟨rfl, hall⟩ := h
      refine ⟨s.takeWhile isWS, r, ?_, all_takeWhile s, ?_⟩
      · conv_lhs => rw [← List.takeWhile_append_dropWhile (p := isWS) (l := s)]
        rw [hd]
      · simpa [List.all_eq_true] using hall
  · rintro ⟨w1, w2, rfl, h1, h2⟩
    unfold wcw
    rw [(takeWhile_exact h1 (by decide)).2]
    simp only [beq_self_eq_true, Bool.true_and, List.all_eq_true]
    exact h2

lemma segs_match_some {eqc : Char → Char → Bool} {field t s1 m val s3 : List Char}
    {rest' : List (List Char)} (hsq : splitQuotes t = (s1, m :: val :: s3 :: rest'))
    (hcond : (matchedL eqc field s1 && wcw m) = true) :
    ∃ w1 w2, fieldMatchAt eqc field ('"' :: t) = some (w1, w2, val, s3 ++ flatQ rest') := by
  simp only [Bool.and_eq_true] at hcond
  obtain ⟨w1, w2, hm2, hw1, hw2⟩ := wcw_iff.mp hcond.2
  have hrt := renderQ_splitQuotes t
  rw [hsq] at hrt
  have hnq := splitQuotes_nq t
  rw [hsq] at hnq
  have hval : noQuote val = true :=
    hnq.2 val (by simp)
  refine ⟨w1, w2, fieldMatchAt_some_iff.mpr ⟨s1, ?_, hcond.1, hw1, hw2, hval⟩⟩
  have : t = s1 ++ '"' :: (m ++ '"' :: (val ++ '"' :: (s3 ++ flatQ rest'))) := by
    rw [← hrt]
    simp [renderQ, flatQ]
  rw [this, hm2]
  simp [List.append_assoc]

lemma head_no_match {eqc : Char → Char → Bool} {field t s1 m val s3 : List Char}
    {rest' : List (List Char)} (hsq : splitQuotes t = (s1, m :: val :: s3 :: rest'))
    (hm : fieldMatchAt eqc field ('"' :: t) = none) :
    (matchedL eqc field s1 && wcw m) = false := by
  by_contra hcond
  rw [Bool.not_eq_false] at hcond
  obtain ⟨w1, w2, hsome⟩ := segs_match_some hsq hcond
  rw [hsome] at hm
  cases hm

lemma fieldMatchAt_splitQuotes {eqc : Char → Char → Bool} {field : List Char}
    (hq : ∀ c ∈ field, eqc c '"' = false) {c : Char} {t w1 w2 val rest : List Char}
    (hm : fieldMatchAt eqc field (c :: t) = some (w1, w2, val, rest)) :
    ∃ p, c = '"' ∧
      splitQuotes t =
        (p, (w1 ++ ':' :: w2) :: val :: (splitQuotes rest).1 :: (splitQuotes rest).2) ∧
      matchedL eqc field p = true ∧ (matchedL eqc field p && wcw (w1 ++ ':' :: w2)) = true := by
  obtain ⟨p, hs, hmL, hw1, hw2, hval⟩ := fieldMatchAt_some_iff.mp hm
  have hc : c = '"' := by injection hs
  have ht : t = p ++ '"' :: ((w1 ++ ':' :: w2) ++ '"' :: (val ++ '"' :: rest)) := by
    injection hs with _ h2
    rw [h2]
    simp [List.append_assoc]
  have hpq : noQuote p = true := matchedL_noQuote hq hmL
  have hmidq : noQuote (w1 ++ ':' :: w2) = true := noQuote_mid hw1 hw2
  refine ⟨p, hc, ?_, hmL, ?_⟩
  · rw [ht, splitQuotes_append_quote hpq, splitQuotes_append_quote hmidq,
      splitQuotes_append_quote hval]
  · rw [hmL, Bool.true_and]
    exact wcw_iff.mpr ⟨w1, w2, rfl, hw1, hw2⟩

/-- Bridge: `re.search` for a field over a text equals the segment-level
search over its quote decomposition. -/
lemma searchField_eq_segs {eqc : Char → Char → Bool} {field : List Char}
    (hq : ∀ c ∈ field, eqc c '"' = false) :
    ∀ s : List Char, searchField eqc field s = searchSegs eqc field (splitQuotes s).2 := by
  intro s
  induction s with
  | nil => simp [searchField, splitQuotes, searchSegs]
  | cons c t ih =>
    cases hm : fieldMatchAt eqc field (c :: t) with
    | some r =>
      obtain ⟨w1, w2, val, rest⟩ := r
      obtain ⟨p, hc, hsq, hmL, hcond⟩ := fieldMatchAt_splitQuotes hq hm
      subst hc
      have hL : searchField eqc field ('"' :: t) = some val := by
        simp only [searchField, hm]
      have hsp : splitQuotes ('"' :: t) = ([], (splitQuotes t).1 :: (splitQuotes t).2) := by
        simp [splitQuotes]
      rw [hL, hsp, hsq]
      simp only [searchSegs, hcond, if_pos]
    | none =>
      have hL : searchField eqc field (c :: t) = searchField eqc field t := by
        simp only [searchField, hm]
      rw [hL, ih]
      by_cases hc : c = '"'
      · subst hc
        have hsp : splitQuotes ('"' :: t) = ([], (splitQuotes t).1 :: (splitQuotes t).2) := by
          simp [splitQuotes]
        rw [hsp]
        cases hsq : splitQuotes t with
        | mk s1 segs' =>
          simp only []
          cases segs' with
          | nil => simp [searchSegs]
          | cons m t2 =>
            cases t2 with
            | nil => simp [searchSegs]
            | cons val t3 =>
              cases t3 with
              | nil => simp [searchSegs]
              | cons s3 rest' =>
                have hcond := head_no_match hsq hm
                conv_rhs => rw [searchSegs]
                rw [if_neg (by rw [hcond]; exact Bool.noConfusion)]
      · have hsp : splitQuotes (c :: t) = (c :: (splitQuotes t).1, (splitQuotes t).2) := by
          simp [splitQuotes, if_neg hc]
        rw [hsp]

/-- Bridge: `re.sub` for a field (with the group-1 backreference kept)
over a text equals the segment-level substitution over its quote
decomposition. -/
lemma subField_eq_segs {field : List Char} (hq : ∀ c ∈ field, beqChar c '"' = false)
    (ins : List Char) :
    ∀ s : List Char,
      subField field ins true s = renderQ (splitQuotes s).1 (subSegs field ins (splitQuotes s).2) := by
  suffices H : ∀ n (s : List Char), s.length ≤ n →
      subField field ins true s = renderQ (splitQuotes s).1 (subSegs field ins (splitQuotes s).2) by
    exact fun s => H s.length s le_rfl
  intro n
  induction n with
  | zero =>
    intro s hs
    have : s = [] := List.length_eq_zero.mp (Nat.le_zero.mp hs)
    subst this
    simp [subField, subFieldA, splitQuotes, subSegs, renderQ, flatQ]
  | succ n ih =>
    intro s hs
    cases s with
    | nil => simp [subField, subFieldA, splitQuotes, subSegs, renderQ, flatQ]
    | cons c t =>
      cases hm : fieldMatchAt beqChar field (c :: t) with
      | some r =>
        obtain ⟨w1, w2, val, rest⟩ := r
        obtain ⟨p, hc, hsq, hmL, hcond⟩ := fieldMatchAt_splitQuotes hq hm
        subst hc
        have hp : p = field := matchedL_beq.mp hmL
        rw [hp] at hsq hcond
        have hrest : rest.length ≤ n := by
          have := fieldMatchAt_rest_length hm
          simp only [List.length_cons] at this hs
          omega
        have hL : subField field ins true ('"' :: t) =
            '"' :: (field ++ '"' :: (w1 ++ ':' :: (w2 ++ ['"']))) ++
            (ins ++ '"' :: subField field ins true rest) := by
          rw [subField_cons]
          simp only [hm]
          simp
        have hsp : splitQuotes ('"' :: t) = ([], (splitQuotes t).1 :: (splitQuotes t).2) := by
          simp [splitQuotes]
        rw [hL, hsp, hsq, ih rest hrest]
        conv_rhs => rw [subSegs]
        rw [if_pos hcond]
        simp [renderQ, flatQ, List.append_assoc]
      | none =>
        have ht : t.length ≤ n := by
          simp only [List.length_cons] at hs
          omega
        have hL : subField field ins true (c :: t) = c :: subField field ins true t := by
          rw [subField_cons]
          simp only [hm]
        rw [hL, ih t ht]
        by_cases hc : c = '"'
        · subst hc
          have hsp : splitQuotes ('"' :: t) = ([], (splitQuotes t).1 :: (splitQuotes t).2) := by
            simp [splitQuotes]
          rw [hsp]
          cases hsq : splitQuotes t with
          | mk s1 segs' =>
            simp only []
            cases segs' with
            | nil => simp [subSegs, renderQ, flatQ]
            | cons m t2 =>
              cases t2 with
              | nil => simp [subSegs, renderQ, flatQ]
              | cons val t3 =>
                cases t3 with
                | nil => simp [subSegs, renderQ, flatQ]
                | cons s3 rest' =>
                  have hcond := head_no_match hsq hm
                  conv_rhs => rw [subSegs]
                  rw [if_neg (by rw [hcond]; exact Bool.noConfusion)]
                  simp [renderQ, flatQ]
        · have hsp : splitQuotes (c :: t) = (c :: (splitQuotes t).1, (splitQuotes t).2) := by
            simp [splitQuotes, if_neg hc]
          rw [hsp]
          simp [renderQ]

lemma subSegs_length (field v : List Char) :
    ∀ l : List (List Char), (subSegs field v l).length = l.length := by
  suffices H : ∀ n (l : List (List Char)), l.length ≤ n →
      (subSegs field v l).length = l.length by
    exact fun l => H l.length l le_rfl
  intro n
  induction n with
  | zero =>
    intro l hl
    have : l = [] := List.length_eq_zero.mp (Nat.le_zero.mp hl)
    subst this
    simp [subSegs]
  | succ n ih =>
    intro l hl
    match l with
    | [] => simp [subSegs]
    | [a] => simp [subSegs]
    | [a, b] => simp [subSegs]
    | [a, b, c] => simp [subSegs]
    | a :: b :: c :: d :: rest =>
      rw [subSegs]
      split
      · have := ih rest (by simp only [List.length_cons] at hl ⊢; omega)
        simp only [List.length_cons, this]
      · have := ih (b :: c :: d :: rest) (by simp only [List.length_cons] at hl ⊢; omega)
        simp only [List.length_cons] at this ⊢
        omega

lemma subSegs_cons_shape (field v : List Char) (x : List Char) (xs : List (List Char)) :
    ∃ m, subSegs field v (x :: xs) = x :: m ∧ m.length = xs.length := by
  match xs with
  | [] => exact ⟨[], by simp [subSegs], rfl⟩
  | [b] => exact ⟨[b], by simp [subSegs], rfl⟩
  | [b, c] => exact ⟨[b, c], by simp [subSegs], rfl⟩
  | b :: c :: d :: rest =>
    rw [subSegs]
    split
    · refine ⟨b :: v :: d :: subSegs field v rest, rfl, ?_⟩
      simp [subSegs_length]
    · refine ⟨subSegs field v (b :: c :: d :: rest), rfl, ?_⟩
      simp [subSegs_length]

lemma subSegs_idem (field v : List Char) :
    ∀ l : List (List Char), subSegs field v (subSegs field v l) = subSegs field v l := by
  suffices H : ∀ n (l : List (List Char)), l.length ≤ n →
      subSegs field v (subSegs field v l) = subSegs field v l by
    exact fun l => H l.length l le_rfl
  intro n
  induction n with
  | zero =>
    intro l hl
    have : l = [] := List.length_eq_zero.mp (Nat.le_zero.mp hl)
    subst this
    simp [subSegs]
  | succ n ih =>
    intro l hl
    match l with
    | [] => simp [subSegs]
    | [a] => simp [subSegs]
    | [a, b] => simp [subSegs]
    | [a, b, c] => simp [subSegs]
    | a :: b :: c :: d :: rest =>
      by_cases hcond : (matchedL beqChar field a && wcw b) = true
      · conv_lhs => rw [subSegs]
        conv_rhs => rw [subSegs]
        rw [if_pos hcond]
        conv_lhs => rw [subSegs]
        rw [if_pos hcond, ih rest (by simp only [List.length_cons] at hl ⊢; omega)]
      · have hif : subSegs field v (a :: b :: c :: d :: rest) =
            a :: subSegs field v (b :: c :: d :: rest) := by
          conv_lhs => rw [subSegs]
          rw [if_neg hcond]
        rw [hif]
        obtain ⟨m, hm, hlen⟩ := subSegs_cons_shape field v b (c :: d :: rest)
        rw [hm]
        have hm3 : 2 ≤ m.length := by
          simp only [List.length_cons] at hlen
          omega
        match m, hm3 with
        | m1 :: m2 :: mrest, _ =>
          conv_lhs => rw [subSegs]
          rw [if_neg hcond]
          have hrec := ih (b :: c :: d :: rest)
            (by simp only [List.length_cons] at hl ⊢; omega)
          rw [hm] at hrec
          rw [hrec]

lemma searchSegs_some_subSegs (field v : List Char) :
    ∀ l : List (List Char), (searchSegs beqChar field l).isSome = true →
      searchSegs beqChar field (subSegs field v l) = some v := by
  suffices H : ∀ n (l : List (List Char)), l.length ≤ n →
      (searchSegs beqChar field l).isSome = true →
      searchSegs beqChar field (subSegs field v l) = some v by
    exact fun l => H l.length l le_rfl
  intro n
  induction n with
  | zero =>
    intro l hl h
    have : l = [] := List.length_eq_zero.mp (Nat.le_zero.mp hl)
    subst this
    simp [searchSegs] at h
  | succ n ih =>
    intro l hl h
    match l with
    | [] => simp [searchSegs] at h
    | [a] => simp [searchSegs] at h
    | [a, b] => simp [searchSegs] at h
    | [a, b, c] => simp [searchSegs] at h
    | a :: b :: c :: d :: rest =>
      by_cases hcond : (matchedL beqChar field a && wcw b) = true
      · conv_lhs => rw [subSegs]
        rw [if_pos hcond]
        rw [searchSegs, if_pos hcond]
      · rw [searchSegs, if_neg hcond] at h
        conv_lhs => rw [subSegs]
        rw [if_neg hcond]
        obtain ⟨m, hm, hlen⟩ := subSegs_cons_shape field v b (c :: d :: rest)
        rw [hm]
        have hm3 : 2 ≤ m.length := by
          simp only [List.length_cons] at hlen
          omega
        match m, hm3 with
        | m1 :: m2 :: mrest, _ =>
          have hrec := ih (b :: c :: d :: rest)
            (by simp only [List.length_cons] at hl ⊢; omega) h
          rw [hm] at hrec
          rw [searchSegs, if_neg hcond]
          exact hrec

lemma searchSegs_none_subSegs (field v : List Char) :
    ∀ l : List (List Char), searchSegs beqChar field l = none → subSegs field v l = l := by
  suffices H : ∀ n (l : List (List Char)), l.length ≤ n →
      searchSegs beqChar field l = none → subSegs field v l = l by
    exact fun l => H l.length l le_rfl
  intro n
  induction n with
  | zero =>
    intro l hl h
    have : l = [] := List.length_eq_zero.mp (Nat.le_zero.mp hl)
    subst this
    simp [subSegs]
  | succ n ih =>
    intro l hl h
    match l with
    | [] => simp [subSegs]
    | [a] => simp [subSegs]
    | [a, b] => simp [subSegs]
    | [a, b, c] => simp [subSegs]
    | a :: b :: c :: d :: rest =>
      rw [searchSegs] at h
      rw [subSegs]
      split
      · rename_i hcond
        rw [if_pos hcond] at h
        cases h
      · rename_i hcond
        rw [if_neg hcond] at h
        rw [ih (b :: c :: d :: rest) (by simp only [List.length_cons] at hl ⊢; omega) h]

lemma subSegs_mem (field v : List Char) :
    ∀ (l : List (List Char)) (x : List Char), x ∈ subSegs field v l → x ∈ l ∨ x = v := by
  suffices H : ∀ n (l : List (List Char)), l.length ≤ n →
      ∀ x, x ∈ subSegs field v l → x ∈ l ∨ x = v by
    exact fun l => H l.length l le_rfl
  intro n
  induction n with
  | zero =>
    intro l hl x hx
    have : l = [] := List.length_eq_zero.mp (Nat.le_zero.mp hl)
    subst this
    simp [subSegs] at hx
  | succ n ih =>
    intro l hl x hx
    match l with
    | [] => simp [subSegs] at hx
    | [a] =>
      simp only [subSegs] at hx
      exact Or.inl hx
    | [a, b] =>
      simp only [subSegs] at hx
      exact Or.inl hx
    | [a, b, c] =>
      simp only [subSegs] at hx
      exact Or.inl hx
    | a :: b :: c :: d :: rest =>
      rw [subSegs] at hx
      split at hx
      · rcases List.mem_cons.mp hx with h | hx2
        · exact Or.inl (by simp [h])
        rcases List.mem_cons.mp hx2 with h | hx3
        · exact Or.inl (by simp [h])
        rcases List.mem_cons.mp hx3 with h | hx4
        · exact Or.inr h
        rcases List.mem_cons.mp hx4 with h | hx5
        · exact Or.inl (by simp [h])
        · rcases ih rest (by simp only [List.length_cons] at hl ⊢; omega) x hx5 with h | h
          · exact Or.inl (by simp [h])
          · exact Or.inr h
      · rcases List.mem_cons.mp hx with h | hx2
        · exact Or.inl (by simp [h])
        · rcases ih (b :: c :: d :: rest)
              (by simp only [List.length_cons] at hl ⊢; omega) x hx2 with h | h
          · exact Or.inl (List.mem_cons_of_mem a h)
          · exact Or.inr h

lemma qEsc_of_noQuote : ∀ {v : List Char}, noQuote v = true → qEsc v = v := by
  intro v
  induction v with
  | nil => intro _; rfl
  | cons c t ih =>
    intro h
    rw [noQuote_iff] at h
    have hc : c ≠ '"' := h c (List.mem_cons_self c t)
    have ht := ih (noQuote_iff.mpr fun y hy => h y (List.mem_cons_of_mem c hy))
    simp [qEsc, if_neg hc, ht]

lemma substValue_sane {v : List Char} (h : saneStart v = true) :
    substValue v = some (true, qEsc v) := by
  cases v with
  | nil => rfl
  | cons c t =>
    simp only [saneStart, Bool.not_eq_true'] at h
    simp [substValue, h]

lemma hasPair_sep {a b : Char} (ha : a ≠ '"') (hb : b ≠ '"') :
    ∀ xs ys : List Char, hasPair a b (xs ++ '"' :: ys) = (hasPair a b xs || hasPair a b ys) := by
  intro xs
  induction xs with
  | nil =>
    intro ys
    cases ys with
    | nil => simp [hasPair]
    | cons y t =>
      rw [List.nil_append, hasPair]
      have h1 : ('"' = a && y = b) = false := by
        simp [Ne.symm ha]
      rw [h1]
      simp [hasPair]
  | cons x xs ih =>
    intro ys
    cases xs with
    | nil =>
      simp only [List.cons_append, List.nil_append]
      rw [hasPair]
      have h1 : (x = a && '"' = b) = false := by
        simp [Ne.symm hb]
      rw [h1, Bool.false_or]
      have h2 := ih ys
      rw [List.nil_append] at h2
      rw [h2]
      have h3 : hasPair a b [x] = false := by simp [hasPair]
      have h4 : hasPair a b ([] : List Char) = false := by simp [hasPair]
      rw [h3, h4, Bool.false_or]
    | cons x2 xs' =>
      simp only [List.cons_append]
      have h2 := ih ys
      simp only [List.cons_append] at h2
      conv_lhs => rw [hasPair]
      rw [h2]
      conv_rhs => rw [hasPair]
      rw [Bool.or_assoc]

lemma hasPair_renderQ {a b : Char} (ha : a ≠ '"') (hb : b ≠ '"') :
    ∀ (segs : List (List Char)) (s0 : List Char),
      hasPair a b (renderQ s0 segs) = (hasPair a b s0 || segs.any (hasPair a b)) := by
  intro segs
  induction segs with
  | nil =>
    intro s0
    simp [renderQ, flatQ]
  | cons x segs ih =>
    intro s0
    have hx : renderQ s0 (x :: segs) = s0 ++ '"' :: renderQ x segs := by
      simp [renderQ, flatQ]
    rw [hx, hasPair_sep ha hb, ih x]
    simp [Bool.or_assoc]

lemma hasPair_of_not_fst {a b : Char} :
    ∀ {l : List Char}, (∀ c ∈ l, c ≠ a) → hasPair a b l = false := by
  intro l
  induction l with
  | nil => intro _; simp [hasPair]
  | cons x t ih =>
    intro h
    cases t with
    | nil => simp [hasPair]
    | cons y t2 =>
      rw [hasPair]
      have hx : (x = a) = False := by
        simp [h x (List.mem_cons_self x (y :: t2))]
      have ht := ih (fun c hc => h c (List.mem_cons_of_mem x hc))
      simp [hx, ht]

lemma stripBlock_id : ∀ s : List Char, hasPair '/' '*' s = false → stripBlock s = s := by
  suffices H : ∀ n (s : List Char), s.length ≤ n → hasPair '/' '*' s = false →
      stripBlock s = s by
    exact fun s => H s.length s le_rfl
  intro n
  induction n with
  | zero =>
    intro s hl h
    have : s = [] := List.length_eq_zero.mp (Nat.le_zero.mp hl)
    subst this
    rfl
  | succ n ih =>
    intro s hl h
    match s with
    | [] => rfl
    | [c] => rfl
    | a :: b :: t =>
      rw [hasPair, Bool.or_eq_false_iff] at h
      have hab : ¬(a = '/' ∧ b = '*') := by
        rintro ⟨rfl, rfl⟩
        simp at h
      rw [stripBlock_cons2, if_neg hab,
        ih (b :: t) (by simp only [List.length_cons] at hl ⊢; omega) h.2]

lemma stripLine_id : ∀ s : List Char, hasPair '/' '/' s = false → stripLine s = s := by
  suffices H : ∀ n (s : List Char), s.length ≤ n → hasPair '/' '/' s = false →
      stripLine s = s by
    exact fun s => H s.length s le_rfl
  intro n
  induction n with
  | zero =>
    intro s hl h
    have : s = [] := List.length_eq_zero.mp (Nat.le_zero.mp hl)
    subst this
    rfl
  | succ n ih =>
    intro s hl h
    match s with
    | [] => rfl
    | [c] => rfl
    | a :: b :: t =>
      rw [hasPair, Bool.or_eq_false_iff] at h
      have hab : ¬(a = '/' ∧ b = '/') := by
        rintro ⟨rfl, rfl⟩
        simp at h
      rw [stripLine_cons2, if_neg hab,
        ih (b :: t) (by simp only [List.length_cons] at hl ⊢; omega) h.2]

lemma stripComments_id {s : List Char} (h1 : hasPair '/' '*' s = false)
    (h2 : hasPair '/' '/' s = false) : stripComments s = s := by
  unfold stripComments
  rw [stripBlock_id s h1, stripLine_id s h2]

lemma searchField_noQuote {eqc : Char → Char → Bool} {field : List Char} :
    ∀ {s v : List Char}, searchField eqc field s = some v → noQuote v = true := by
  intro s
  induction s with
  | nil => intro v h; simp [searchField] at h
  | cons c t ih =>
    intro v h
    cases hm : fieldMatchAt eqc field (c :: t) with
    | some r =>
      simp only [searchField, hm] at h
      cases h
      obtain ⟨p, hs, hmL, hw1, hw2, hval⟩ := fieldMatchAt_some_iff.mp hm
      exact hval
    | none =>
      simp only [searchField, hm] at h
      exact ih h

lemma renderOrig_chunks (field : List Char) :
    ∀ s : List Char, renderOrig field (fieldChunks field s) = s := by
  suffices H : ∀ n (s : List Char), s.length ≤ n →
      renderOrig field (fieldChunks field s) = s by
    exact fun s => H s.length s le_rfl
  intro n
  induction n with
  | zero =>
    intro s hl
    have : s = [] := List.length_eq_zero.mp (Nat.le_zero.mp hl)
    subst this
    simp [fieldChunks, fieldChunksA, renderOrig]
  | succ n ih =>
    intro s hl
    cases s with
    | nil => simp [fieldChunks, fieldChunksA, renderOrig]
    | cons c t =>
      cases hm : fieldMatchAt beqChar field (c :: t) with
      | some r =>
        obtain ⟨w1, w2, val, rest⟩ := r
        obtain ⟨p, hs, hmL, hw1, hw2, hval⟩ := fieldMatchAt_some_iff.mp hm
        have hp : p = field := matchedL_beq.mp hmL
        rw [hp] at hs
        have hrest : rest.length ≤ n := by
          have := fieldMatchAt_rest_length hm
          simp only [List.length_cons] at this hl
          omega
        have hL : fieldChunks field (c :: t) =
            Sum.inr (w1, w2, val) :: fieldChunks field rest := by
          rw [fieldChunks_cons]
          simp only [hm]
        rw [hL, renderOrig, ih rest hrest, hs]
      | none =>
        have ht : t.length ≤ n := by
          simp only [List.length_cons] at hl
          omega
        have hL : fieldChunks field (c :: t) = Sum.inl c :: fieldChunks field t := by
          rw [fieldChunks_cons]
          simp only [hm]
        rw [hL, renderOrig, ih t ht]

lemma subField_renderSub (field ins : List Char) (keep1 : Bool) :
    ∀ s : List Char, subField field ins keep1 s = renderSub field ins keep1 (fieldChunks field s) := by
  suffices H : ∀ n (s : List Char), s.length ≤ n →
      subField field ins keep1 s = renderSub field ins keep1 (fieldChunks field s) by
    exact fun s => H s.length s le_rfl
  intro n
  induction n with
  | zero =>
    intro s hl
    have : s = [] := List.length_eq_zero.mp (Nat.le_zero.mp hl)
    subst this
    simp [fieldChunks, fieldChunksA, subField, subFieldA, renderSub]
  | succ n ih =>
    intro s hl
    cases s with
    | nil => simp [fieldChunks, fieldChunksA, subField, subFieldA, renderSub]
    | cons c t =>
      cases hm : fieldMatchAt beqChar field (c :: t) with
      | some r =>
        obtain ⟨w1, w2, val, rest⟩ := r
        have hrest : rest.length ≤ n := by
          have := fieldMatchAt_rest_length hm
          simp only [List.length_cons] at this hl
          omega
        have hL : subField field ins keep1 (c :: t) =
            (if keep1 then '"' :: (field ++ '"' :: (w1 ++ ':' :: (w2 ++ ['"']))) else []) ++
            (ins ++ '"' :: subField field ins keep1 rest) := by
          rw [subField_cons]
          simp only [hm]
        have hC : fieldChunks field (c :: t) =
            Sum.inr (w1, w2, val) :: fieldChunks field rest := by
          rw [fieldChunks_cons]
          simp only [hm]
        rw [hL, hC, renderSub, ih rest hrest]
      | none =>
        have ht : t.length ≤ n := by
          simp only [List.length_cons] at hl
          omega
        have hL : subField field ins keep1 (c :: t) = c :: subField field ins keep1 t := by
          rw [subField_cons]
          simp only [hm]
        have hC : fieldChunks field (c :: t) = Sum.inl c :: fieldChunks field t := by
          rw [fieldChunks_cons]
          simp only [hm]
        rw [hL, hC, renderSub, ih t ht]

lemma patchOne_of_search_none {field v content : List Char}
    (h : searchField beqChar field content = none) :
    patchOne field v content = some (content, false) := by
  simp [patchOne, h]

lemma patchOne_of_search_some {field v content : List Char}
    (h : (searchField beqChar field content).isSome = true)
    (hs : saneStart v = true) (hq : noQuote v = true) :
    patchOne field v content = some (subField field v true content, true) := by
  rw [patchOne, if_pos h, substValue_sane hs, qEsc_of_noQuote hq]

lemma subbed_splitQuotes {field v T : List Char} (hq : noQuote v = true) :
    splitQuotes (renderQ (splitQuotes T).1 (subSegs field v (splitQuotes T).2)) =
      ((splitQuotes T).1, subSegs field v (splitQuotes T).2) := by
  apply splitQuotes_renderQ
  · exact (splitQuotes_nq T).1
  · intro x hx
    rcases subSegs_mem field v (splitQuotes T).2 x hx with h | h
    · exact (splitQuotes_nq T).2 x h
    · rw [h]; exact hq

/-- The patch step applied twice with the same sane, quote-free value
returns exactly what one application returns: the general idempotence
behind C1. -/
lemma patch_idem_general {field : List Char} (hf : ∀ c ∈ field, beqChar c '"' = false)
    {v T T1 : List Char} {b : Bool} (hq : noQuote v = true) (hs : saneStart v = true)
    (h : patchOne field v T = some (T1, b)) : patchOne field v T1 = some (T1, b) := by
  by_cases hsrch : (searchField beqChar field T).isSome = true
  · rw [patchOne_of_search_some hsrch hs hq] at h
    cases h
    have hT1 : subField field v true T =
        renderQ (splitQuotes T).1 (subSegs field v (splitQuotes T).2) :=
      subField_eq_segs hf v T
    have hsegs : (searchSegs beqChar field (splitQuotes T).2).isSome = true := by
      rw [← searchField_eq_segs hf]
      exact hsrch
    have hs2 : searchField beqChar field (subField field v true T) = some v := by
      rw [hT1, searchField_eq_segs hf, subbed_splitQuotes hq]
      exact searchSegs_some_subSegs field v _ hsegs
    have hsome2 : (searchField beqChar field (subField field v true T)).isSome = true := by
      rw [hs2]; rfl
    rw [patchOne_of_search_some hsome2 hs hq]
    have hkey : subField field v true (subField field v true T) = subField field v true T := by
      conv_lhs => rw [hT1]
      rw [subField_eq_segs hf, subbed_splitQuotes hq]
      dsimp only
      rw [subSegs_idem]
      exact hT1.symm
    rw [hkey]
  · have hnone : searchField beqChar field T = none := by
      cases hopt : searchField beqChar field T with
      | some x => exact absurd (by rw [hopt]; rfl) hsrch
      | none => rfl
    rw [patchOne_of_search_none hnone] at h
    cases h
    rw [patchOne_of_search_none hnone]

/-- Patching a sane, quote-free, comment-free value into a comment-free
text, then extracting the same field after comment stripping, recovers
the value exactly: the general round trip behind C3. -/
lemma patch_extract_general {field : List Char} (hf : ∀ c ∈ field, beqChar c '"' = false)
    {v T : List Char} (hq : noQuote v = true) (hs : saneStart v = true)
    (hT1 : hasPair '/' '*' T = false) (hT2 : hasPair '/' '/' T = false)
    (hv1 : hasPair '/' '*' v = false) (hv2 : hasPair '/' '/' v = false)
    (hsrch : (searchField beqChar field T).isSome = true) :
    patchOne field v T = some (subField field v true T, true) ∧
    searchField beqChar field (stripComments (subField field v true T)) = some v := by
  refine ⟨patchOne_of_search_some hsrch hs hq, ?_⟩
  have hT1' : subField field v true T =
      renderQ (splitQuotes T).1 (subSegs field v (splitQuotes T).2) :=
    subField_eq_segs hf v T
  have hsub : ∀ (a b : Char), a ≠ '"' → b ≠ '"' →
      hasPair a b T = false → hasPair a b v = false →
      hasPair a b (subField field v true T) = false := by
    intro a b ha hb hT hv
    rw [hT1', hasPair_renderQ ha hb]
    have hTsplit : hasPair a b (renderQ (splitQuotes T).1 (splitQuotes T).2) = false := by
      rw [renderQ_splitQuotes T]
      exact hT
    rw [hasPair_renderQ ha hb] at hTsplit
    rw [Bool.or_eq_false_iff] at hTsplit
    rw [Bool.or_eq_false_iff]
    refine ⟨hTsplit.1, ?_⟩
    rw [List.any_eq_false]
    intro x hx
    rcases subSegs_mem field v (splitQuotes T).2 x hx with h | h
    · have h2 := List.any_eq_false.mp hTsplit.2
      simpa using h2 x h
    · rw [h]
      simp [hv]
  have hstrip : stripComments (subField field v true T) = subField field v true T :=
    stripComments_id (hsub '/' '*' (by decide) (by decide) hT1 hv1)
      (hsub '/' '/' (by decide) (by decide) hT2 hv2)
  rw [hstrip, hT1', searchField_eq_segs hf, subbed_splitQuotes hq]
  apply searchSegs_some_subSegs
  rw [← searchField_eq_segs hf]
  exact hsrch

/-- Per-character view of the escaping step: backslash doubles, quote
gains a backslash, all else is kept. -/
def escChar (c : Char) : List Char :=
  if c = '\\' then ['\\', '\\'] else if c = '"' then ['\\', '"'] else [c]

/-- The per-character escaping map applied to a whole value. -/
def escAll : List Char → List Char
  | [] => []
  | c :: t => escChar c ++ escAll t

lemma replOne_append (a : Char) (r : List Char) :
    ∀ x y : List Char, replOne a r (x ++ y) = replOne a r x ++ replOne a r y := by
  intro x
  induction x with
  | nil => intro y; rfl
  | cons c t ih =>
    intro y
    simp only [List.cons_append, replOne, List.append_eq, ih, List.append_assoc]

lemma escapeValue_escAll : ∀ v : List Char, escapeValue v = escAll v := by
  intro v
  induction v with
  | nil => rfl
  | cons c t ih =>
    unfold escapeValue at ih ⊢
    simp only [replOne, escAll]
    rw [replOne_append]
    by_cases hb : c = '\\'
    · subst hb
      simp only [if_pos rfl, escChar, if_pos rfl]
      rw [ih]
      rfl
    · by_cases hq : c = '"'
      · subst hq
        simp only [escChar, if_neg hb, if_pos rfl]
        rw [ih]
        rfl
      · simp only [if_neg hb, escChar, if_neg hq]
        rw [ih]
        simp [replOne, hb, hq]

/-- C1 (amended): the Field Patcher is idempotent for every replacement
value that contains no double quote and does not start with a decimal
digit.  Re-running `patchOne` for `Name` on its own output returns that
output (and the same changed flag) for every manifest text, matched or
not.  (For values containing a double quote the code is not idempotent:
see the counterexample.) -/
theorem c1_patch_idempotent (T v : List Char) (hq : noQuote v = true)
    (hs : saneStart v = true) (T1 : List Char) (b : Bool)
    (h : patchOne nameKey v T = some (T1, b)) : patchOne nameKey v T1 = some (T1, b) :=
  patch_idem_general (by decide) hq hs h

/-- Witness for C1 at the value `a\b` and the text `"Name": "x"`. -/
theorem c1_patch_idempotent_witness :
    patchOne nameKey ['a', '\\', 'b'] "\"Name\": \"x\"".data =
      some ("\"Name\": \"a\\b\"".data, true) ∧
    patchOne nameKey ['a', '\\', 'b'] "\"Name\": \"a\\b\"".data =
      some ("\"Name\": \"a\\b\"".data, true) :=
  ⟨by decide,
   c1_patch_idempotent "\"Name\": \"x\"".data ['a', '\\', 'b'] (by decide) (by decide)
     "\"Name\": \"a\\b\"".data true (by decide)⟩

/-- C1 as stated fails: patching `a"b` into `"Name": "x"` once yields
the text `"Name": "a\"b"`; patching that output again with the same
value yields `"Name": "a\"b"b"` — not the same text, because the second
pass stops the value span at the quote the first pass inserted. -/
theorem c1_counterexample :
    patchOne nameKey ['a', '"', 'b'] "\"Name\": \"x\"".data =
      some ("\"Name\": \"a\\\"b\"".data, true) ∧
    patchOne nameKey ['a', '"', 'b'] "\"Name\": \"a\\\"b\"".data =
      some ("\"Name\": \"a\\\"b\"b\"".data, true) ∧
    "\"Name\": \"a\\\"b\"b\"".data ≠ "\"Name\": \"a\\\"b\"".data := by
  refine ⟨by decide, by decide, by decide⟩

/-- C2 (amended): the field substitution rewrites the quoted value span
of EVERY occurrence of the field pattern, not only the first.  The chunk
decomposition shows the frame property: re-rendering the chunks with the
original values gives back the text byte for byte, and `subField` equals
re-rendering with every match's value replaced by the insertion (keys,
whitespace runs, colons and all text outside matches preserved); when no
occurrence matches, the patch step returns the text unchanged with the
changed flag false. -/
theorem c2_patch_every_occurrence (field content ins v : List Char) (keep1 : Bool) :
    renderOrig field (fieldChunks field content) = content ∧
    subField field ins keep1 content = renderSub field ins keep1 (fieldChunks field content) ∧
    (searchField beqChar field content = none →
      patchOne field v content = some (content, false)) :=
  ⟨renderOrig_chunks field content, subField_renderSub field ins keep1 content,
   fun h => patchOne_of_search_none h⟩

/-- Witness for C2 on a text with two Name occurrences. -/
theorem c2_patch_every_occurrence_witness :
    renderOrig nameKey (fieldChunks nameKey "\"Name\": \"a\", \"Name\": \"b\"".data) =
      "\"Name\": \"a\", \"Name\": \"b\"".data ∧
    subField nameKey ['c'] true "\"Name\": \"a\", \"Name\": \"b\"".data =
      renderSub nameKey ['c'] true (fieldChunks nameKey "\"Name\": \"a\", \"Name\": \"b\"".data) :=
  ⟨(c2_patch_every_occurrence nameKey "\"Name\": \"a\", \"Name\": \"b\"".data ['c'] ['c'] true).1,
   (c2_patch_every_occurrence nameKey "\"Name\": \"a\", \"Name\": \"b\"".data ['c'] ['c'] true).2.1⟩

/-- C2 as stated fails: on a text with two Name fields, `re.sub`
(no count argument) rewrites BOTH value spans, so the output differs
from the claimed first-occurrence-only result. -/
theorem c2_counterexample :
    patchOne nameKey ['c'] "\"Name\": \"a\", \"Name\": \"b\"".data =
      some ("\"Name\": \"c\", \"Name\": \"c\"".data, true) ∧
    "\"Name\": \"c\", \"Name\": \"c\"".data ≠ "\"Name\": \"c\", \"Name\": \"b\"".data := by
  refine ⟨by decide, by decide⟩

/-- C3 (amended): the escaping step is exactly backslash-doubling
followed by quote-escaping (the per-character map `escChar`), and the
patch-then-extract round trip returns the original value whenever the
value has no double quote, does not start with a digit, and neither the
text nor the value contains a comment delimiter; in particular values
containing backslashes round-trip exactly (the `re.sub` template
collapses the doubled backslashes back, and extraction returns the raw
span).  Values containing a double quote do NOT round-trip: see the
counterexample. -/
theorem c3_escape_roundtrip :
    (∀ v : List Char, escapeValue v = escAll v) ∧
    (∀ T v : List Char, noQuote v = true → saneStart v = true →
      hasPair '/' '*' T = false → hasPair '/' '/' T = false →
      hasPair '/' '*' v = false → hasPair '/' '/' v = false →
      (searchField beqChar nameKey T).isSome = true →
      patchOne nameKey v T = some (subField nameKey v true T, true) ∧
      ∀ folder rel : List Char,
        (extractRecord folder rel (subField nameKey v true T)).name = some v) := by
  refine ⟨escapeValue_escAll, ?_⟩
  intro T v hq hs h1 h2 h3 h4 hsr
  obtain ⟨hp, he⟩ := @patch_extract_general nameKey (by decide) v T hq hs h1 h2 h3 h4 hsr
  exact ⟨hp, fun folder rel => he⟩

/-- Witness for C3 at the backslash-holding value `a\b`. -/
theorem c3_escape_roundtrip_witness :
    (extractRecord ['F'] ['P']
      (subField nameKey ['a', '\\', 'b'] true "\"Name\": \"x\"".data)).name =
      some ['a', '\\', 'b'] :=
  ((c3_escape_roundtrip).2 "\"Name\": \"x\"".data ['a', '\\', 'b'] (by decide) (by decide)
    (by decide) (by decide) (by decide) (by decide) (by decide)).2 ['F'] ['P']

/-- C3 as stated fails for a value containing a double quote: patching
`a"b` yields the text `"Name": "a\"b"`, and the extractor (which reads
the raw span up to the first quote) returns `a\`, not `a"b`. -/
theorem c3_counterexample :
    patchOne nameKey ['a', '"', 'b'] "\"Name\": \"x\"".data =
      some ("\"Name\": \"a\\\"b\"".data, true) ∧
    (extractRecord ['F'] ['P'] "\"Name\": \"a\\\"b\"".data).name = some ['a', '\\'] ∧
    (['a', '\\'] : List Char) ≠ ['a', '"', 'b'] := by
  refine ⟨by decide, by decide, by decide⟩

/-- C5 (amended): comment stripping runs as a pure text transform before
every field search (the extractor's fields are searches over the
stripped text), and a text containing no `/*` and no `//` sequence at
all is left unchanged by it; but the pass is not quote-aware, so a
field value containing a comment delimiter inside its quotes IS
processed as a comment (see the counterexample). -/
theorem c5_strip_before_search :
    (∀ folder rel raw : List Char,
      (extractRecord folder rel raw).name = searchField beqChar nameKey (stripComments raw) ∧
      (extractRecord folder rel raw).description =
        searchField beqChar descKey (stripComments raw)) ∧
    (∀ s : List Char, hasPair '/' '*' s = false → hasPair '/' '/' s = false →
      stripComments s = s) :=
  ⟨fun _ _ _ => ⟨rfl, rfl⟩, fun _ h1 h2 => stripComments_id h1 h2⟩

/-- Witness for C5 on a delimiter-free manifest text. -/
theorem c5_strip_before_search_witness :
    stripComments "\"Name\": \"x\"".data = "\"Name\": \"x\"".data :=
  (c5_strip_before_search).2 "\"Name\": \"x\"".data (by decide) (by decide)

/-- C5 as stated fails: the value `a//b` inside quotes is treated as a
line comment; stripping truncates the text at the `//` and the Name
field is no longer extractable at all. -/
theorem c5_counterexample :
    stripComments "\"Name\": \"a//b\"".data = "\"Name\": \"a".data ∧
    stripComments "\"Name\": \"a//b\"".data ≠ "\"Name\": \"a//b\"".data ∧
    (extractRecord ['F'] ['P'] "\"Name\": \"a//b\"".data).name = none := by
  refine ⟨by decide, by decide, by decide⟩

lemma truthy_any (p : Char → Bool) : ∀ v : List Char, (!v.isEmpty && v.any p) = v.any p := by
  intro v
  cases v with
  | nil => rfl
  | cons c t => rfl

lemma chineseFlag_iff (n d : Option (List Char)) :
    chineseFlag n d = true ↔
      (∃ v, n = some v ∧ ∃ c ∈ v, isCJK c = true) ∨
      (∃ v, d = some v ∧ ∃ c ∈ v, isCJK c = true) := by
  unfold chineseFlag chineseSearch
  cases n with
  | none =>
    cases d with
    | none => simp
    | some v =>
      dsimp only
      rw [truthy_any]
      simp [List.any_eq_true]
  | some w =>
    cases d with
    | none =>
      dsimp only
      rw [truthy_any]
      simp [List.any_eq_true]
    | some v =>
      dsimp only
      rw [truthy_any, truthy_any]
      simp [List.any_eq_true]

/-- C7: a record field that is absent or empty never causes a patch: the
restore step with a falsy Name behaves exactly as with no Name at all
(likewise for Description), with both falsy it returns the text
unchanged and the changed flag false, and the stored UniqueID is never
consulted — changing it never changes the result. -/
theorem c7_non_destructive_absence (r : ModRecord) (content : List Char) :
    ((r.name = none ∨ r.name = some []) →
      restoreRecord r content = restoreFields none r.description content) ∧
    ((r.description = none ∨ r.description = some []) →
      restoreRecord r content = restoreFields r.name none content) ∧
    ((r.name = none ∨ r.name = some []) → (r.description = none ∨ r.description = some []) →
      restoreRecord r content = some (content, false)) ∧
    (∀ u, restoreRecord { r with uniqueID := u } content = restoreRecord r content) := by
  refine ⟨?_, ?_, ?_, fun u => rfl⟩
  · intro h
    rcases h with h | h <;> simp [restoreRecord, restoreFields, h]
  · intro h
    rcases h with h | h <;> simp [restoreRecord, restoreFields, h]
  · intro h1 h2
    rcases h1 with h1 | h1 <;> rcases h2 with h2 | h2 <;>
      simp [restoreRecord, restoreFields, h1, h2]

/-- Witness for C7: a record with empty Name and absent Description
leaves the text untouched and reports no change. -/
theorem c7_non_destructive_absence_witness :
    restoreRecord
      { uniqueID := ['u'], name := some [], description := none, path := ['p'],
        isChinese := true, nurl := none } "\"Name\": \"x\"".data =
      some ("\"Name\": \"x\"".data, false) :=
  (c7_non_destructive_absence
    { uniqueID := ['u'], name := some [], description := none, path := ['p'],
      isChinese := true, nurl := none } "\"Name\": \"x\"".data).2.2.1
    (Or.inr rfl) (Or.inl rfl)

/-- C8: the extracted record's IsChinese flag is set exactly when the
extracted name or description holds a character in U+4E00..U+9FFF; the
manifest with Name 测试模组 classifies true and the English-only
manifest classifies false. -/
theorem c8_localization :
    (∀ folder rel raw : List Char,
      (extractRecord folder rel raw).isChinese = true ↔
        (∃ v, (extractRecord folder rel raw).name = some v ∧ ∃ c ∈ v, isCJK c = true) ∨
        (∃ v, (extractRecord folder rel raw).description = some v ∧ ∃ c ∈ v, isCJK c = true)) ∧
    (extractRecord ['F'] ['P'] "\"Name\": \"测试模组\"".data).isChinese = true ∧
    (extractRecord ['F'] ['P']
      "\"Name\": \"Test Mod\", \"Description\": \"A test\"".data).isChinese = false := by
  refine ⟨?_, by decide, by decide⟩
  intro folder rel raw
  exact chineseFlag_iff (extractRecord folder rel raw).name
    (extractRecord folder rel raw).description

/-- Witness for C8, reading off the flag of the 测试模组 manifest
through the characterisation. -/
theorem c8_localization_witness :
    ((∃ v, (extractRecord ['F'] ['P'] "\"Name\": \"测试模组\"".data).name = some v ∧
        ∃ c ∈ v, isCJK c = true) ∨
      (∃ v, (extractRecord ['F'] ['P'] "\"Name\": \"测试模组\"".data).description = some v ∧
        ∃ c ∈ v, isCJK c = true)) :=
  ((c8_localization).1 ['F'] ['P'] "\"Name\": \"测试模组\"".data).mp (by decide)

/-- C9: the encoding reader tries `utf-8`, then `utf-8-sig`, then
`latin-1` in that order and returns the first success; `latin-1` decodes
every byte sequence (each byte to its own code point), so the chain
never fails — a manifest that can be opened is always decoded. -/
theorem c9_encoding_reader_total (l : List Byte) :
    (readManifestText l).isSome = true ∧
    (∀ s, decodeUtf8 l = some s → readManifestText l = some s) ∧
    (∀ s, decodeUtf8 l = none → decodeUtf8Sig l = some s → readManifestText l = some s) ∧
    (decodeUtf8 l = none → decodeUtf8Sig l = none →
      readManifestText l = some (decodeLatin1 l)) := by
  unfold readManifestText
  cases h1 : decodeUtf8 l with
  | some s =>
    refine ⟨rfl, ?_, ?_, ?_⟩
    · intro t ht
      cases ht
      rfl
    · intro t h
      cases h
    · intro h
      cases h
  | none =>
    cases h2 : decodeUtf8Sig l with
    | some s =>
      refine ⟨rfl, ?_, ?_, ?_⟩
      · intro t ht
        cases ht
      · intro t h3 ht
        cases ht
        rfl
      · intro h3 h4
        cases h4
    | none =>
      refine ⟨rfl, ?_, ?_, ?_⟩
      · intro t ht
        cases ht
      · intro t h3 ht
        cases ht
      · intro h3 h4
        rfl

/-- Witness for C9 at the byte 0xFF, invalid UTF-8 with or without a
BOM, decoded by the latin-1 fallback. -/
theorem c9_encoding_reader_total_witness :
    readManifestText [(0xff : Byte)] = some (decodeLatin1 [(0xff : Byte)]) :=
  (c9_encoding_reader_total [(0xff : Byte)]).2.2.2 (by decide) (by decide)

/-- C10: every value the extractor returns for Name, Description or
UniqueID is the raw span up to the next double quote, hence quote-free;
a source value written with an escaped quote comes back truncated at its
backslash, as the concrete manifest shows. -/
theorem c10_extracted_values_quote_free :
    (∀ folder rel raw v : List Char,
      (extractRecord folder rel raw).name = some v → noQuote v = true) ∧
    (∀ folder rel raw v : List Char,
      (extractRecord folder rel raw).description = some v → noQuote v = true) ∧
    (∀ raw v : List Char,
      searchField ciChar uidKey (stripComments raw) = some v → noQuote v = true) ∧
    (extractRecord ['F'] ['P'] "\"Name\": \"a\\\"b\"".data).name = some ['a', '\\'] := by
  refine ⟨?_, ?_, ?_, by decide⟩
  · intro folder rel raw v h
    exact searchField_noQuote (s := stripComments raw) h
  · intro folder rel raw v h
    exact searchField_noQuote (s := stripComments raw) h
  · intro raw v h
    exact searchField_noQuote h

/-- Witness for C10 on the escaped-quote manifest. -/
theorem c10_extracted_values_quote_free_witness :
    noQuote ['a', '\\'] = true :=
  (c10_extracted_values_quote_free).1 ['F'] ['P'] "\"Name\": \"a\\\"b\"".data ['a', '\\']
    (by decide)

lemma lookupKV_insert_self (store : List (List Char × ModRecord)) (k : List Char)
    (r : ModRecord) : lookupKV (insertKV store k r) k = some r := by
  induction store with
  | nil => simp [insertKV, lookupKV]
  | cons p t ih =>
    by_cases h : p.1 = k
    · simp [insertKV, h, lookupKV]
    · simp [insertKV, h, lookupKV, ih]

lemma lookupKV_insert_other (store : List (List Char × ModRecord)) (k k' : List Char)
    (r : ModRecord) (h : k' ≠ k) :
    lookupKV (insertKV store k r) k' = lookupKV store k' := by
  induction store with
  | nil => simp [insertKV, lookupKV, Ne.symm h]
  | cons p t ih =>
    by_cases hp : p.1 = k
    · simp [insertKV, hp, lookupKV, Ne.symm h]
    · simp [insertKV, hp, lookupKV, ih]

lemma keys_insertKV (store : List (List Char × ModRecord)) (k : List Char) (r : ModRecord) :
    ∀ x, x ∈ (insertKV store k r).map Prod.fst ↔ x = k ∨ x ∈ store.map Prod.fst := by
  induction store with
  | nil => intro x; simp [insertKV]
  | cons p t ih =>
    intro x
    by_cases hp : p.1 = k
    · rw [insertKV, if_pos hp]
      simp only [List.map_cons, List.mem_cons, hp]
      tauto
    · rw [insertKV, if_neg hp]
      simp only [List.map_cons, List.mem_cons, ih x]
      tauto

lemma nodup_keys_insertKV (store : List (List Char × ModRecord)) (k : List Char)
    (r : ModRecord) (h : (store.map Prod.fst).Nodup) :
    ((insertKV store k r).map Prod.fst).Nodup := by
  induction store with
  | nil => simp [insertKV]
  | cons p t ih =>
    rw [List.map_cons, List.nodup_cons] at h
    by_cases hp : p.1 = k
    · simp only [insertKV, if_pos hp, List.map_cons, List.nodup_cons]
      rw [← hp]
      exact h
    · simp only [insertKV, if_neg hp, List.map_cons, List.nodup_cons]
      refine ⟨?_, ih h.2⟩
      rw [keys_insertKV]
      rintro (he | hmem)
      · exact hp he
      · exact h.1 hmem

lemma scanStep_eq (store : List (List Char × ModRecord)) (inp : ScanInput) :
    scanStep store inp =
      if truthyStr (extractRecord inp.folder inp.relPath inp.raw).name ||
          truthyStr (extractRecord inp.folder inp.relPath inp.raw).description then
        insertKV store inp.relPath (extractRecord inp.folder inp.relPath inp.raw)
      else store := rfl

lemma runScanFrom_nodup (inputs : List ScanInput) :
    ∀ store : List (List Char × ModRecord), (store.map Prod.fst).Nodup →
      ((runScanFrom store inputs).map Prod.fst).Nodup := by
  induction inputs with
  | nil => intro store h; exact h
  | cons a rest ih =>
    intro store h
    rw [runScanFrom]
    apply ih
    rw [scanStep_eq]
    split
    · exact nodup_keys_insertKV _ _ _ h
    · exact h

lemma runScanFrom_lookup_notmem (inputs : List ScanInput) :
    ∀ (store : List (List Char × ModRecord)) (k : List Char),
      k ∉ inputs.map ScanInput.relPath →
      lookupKV (runScanFrom store inputs) k = lookupKV store k := by
  induction inputs with
  | nil => intro store k _; rfl
  | cons a rest ih =>
    intro store k hk
    rw [List.map_cons, List.mem_cons] at hk
    push_neg at hk
    rw [runScanFrom, ih _ k hk.2, scanStep_eq]
    split
    · exact lookupKV_insert_other _ _ _ _ hk.1
    · rfl

lemma runScanFrom_lookup_mem (inputs : List ScanInput) :
    ∀ store : List (List Char × ModRecord), (inputs.map ScanInput.relPath).Nodup →
      ∀ inp ∈ inputs,
        lookupKV (runScanFrom store inputs) inp.relPath =
          (if truthyStr (extractRecord inp.folder inp.relPath inp.raw).name ||
              truthyStr (extractRecord inp.folder inp.relPath inp.raw).description
           then some (extractRecord inp.folder inp.relPath inp.raw)
           else lookupKV store inp.relPath) := by
  induction inputs with
  | nil =>
    intro store _ inp hmem
    simp at hmem
  | cons a rest ih =>
    intro store hnd inp hmem
    rw [List.map_cons, List.nodup_cons] at hnd
    rw [runScanFrom]
    rcases List.mem_cons.mp hmem with rfl | hmem2
    · rw [runScanFrom_lookup_notmem rest _ _ hnd.1, scanStep_eq]
      by_cases ht : (truthyStr (extractRecord inp.folder inp.relPath inp.raw).name ||
          truthyStr (extractRecord inp.folder inp.relPath inp.raw).description) = true
      · rw [if_pos ht, if_pos ht, lookupKV_insert_self]
      · rw [if_neg ht, if_neg ht]
    · have hne : inp.relPath ≠ a.relPath := by
        intro he
        exact hnd.1 (he ▸ List.mem_map_of_mem ScanInput.relPath hmem2)
      rw [ih _ hnd.2 inp hmem2, scanStep_eq]
      split
      · rfl
      · split
        · rw [lookupKV_insert_other _ _ _ _ hne]
        · rfl

/-- C6 (amended): when the discovered relative paths are distinct, the
store the scan builds has pairwise-distinct keys, and each scanned
manifest is looked up at its relative path to exactly its extracted
record when the extracted name or description is truthy (non-absent AND
non-empty), and to nothing at all otherwise.  The code's skip test is
Python truthiness, so a manifest whose name extracts to the empty
string is also skipped, not only one with both fields absent: see the
counterexample. -/
theorem c6_store_inclusion (inputs : List ScanInput)
    (h : (inputs.map ScanInput.relPath).Nodup) :
    ((runScan inputs).map Prod.fst).Nodup ∧
    ∀ inp ∈ inputs,
      lookupKV (runScan inputs) inp.relPath =
        (if truthyStr (extractRecord inp.folder inp.relPath inp.raw).name ||
            truthyStr (extractRecord inp.folder inp.relPath inp.raw).description
         then some (extractRecord inp.folder inp.relPath inp.raw)
         else none) := by
  refine ⟨runScanFrom_nodup inputs [] (by simp), ?_⟩
  intro inp hmem
  exact runScanFrom_lookup_mem inputs [] h inp hmem

/-- Witness for C6 on a one-manifest scan whose Name is `x`. -/
theorem c6_store_inclusion_witness :
    lookupKV (runScan [⟨['A'], ['P'], "\"Name\": \"x\"".data⟩]) ['P'] =
      some (extractRecord ['A'] ['P'] "\"Name\": \"x\"".data) := by
  have h := (c6_store_inclusion [⟨['A'], ['P'], "\"Name\": \"x\"".data⟩] (by decide)).2
    ⟨['A'], ['P'], "\"Name\": \"x\"".data⟩ (List.mem_singleton.mpr rfl)
  rw [h]
  decide

/-- C6 as stated fails: a manifest whose Name field is present but
empty (`"Name": ""`) does not have both fields absent, yet the scan
inserts nothing for it — the empty string is falsy in the skip test. -/
theorem c6_counterexample :
    (extractRecord ['A'] ['P'] "\"Name\": \"\"".data).name = some [] ∧
    runScan [⟨['A'], ['P'], "\"Name\": \"\"".data⟩] = [] := by
  refine ⟨by decide, by decide⟩

/-- A slash-free character list: such a value can never take part in a
comment delimiter. -/
def noSlash (s : List Char) : Bool := s.all (fun c => c != '/')

lemma noSlash_chars {s : List Char} (h : noSlash s = true) : ∀ x ∈ s, x ≠ '/' := by
  rw [noSlash, List.all_eq_true] at h
  intro x hx
  simpa using h x hx

lemma digit_ne_quote {x : Char} (h : x.isDigit = true) : x ≠ '"' := by
  intro he
  rw [he] at h
  exact absurd h (by decide)

lemma digit_ne_rbracket {x : Char} (h : x.isDigit = true) : x ≠ ']' := by
  intro he
  rw [he] at h
  exact absurd h (by decide)

lemma digit_ne_slash {x : Char} (h : x.isDigit = true) : x ≠ '/' := by
  intro he
  rw [he] at h
  exact absurd h (by decide)

lemma noQuote_append {u v : List Char} (hu : noQuote u = true) (hv : noQuote v = true) :
    noQuote (u ++ v) = true := by
  simp only [noQuote, List.all_append, Bool.and_eq_true]
  exact ⟨hu, hv⟩

lemma digits_noQuote {e : List Char} (he : ∀ x ∈ e, x.isDigit = true) : noQuote e = true := by
  rw [noQuote, List.all_eq_true]
  intro x hx
  simpa using digit_ne_quote (he x hx)

lemma tempSegs_nq {a b c e : List Char} (ha : noQuote a = true) (hb : noQuote b = true)
    (hc : noQuote c = true) (he : ∀ x ∈ e, x.isDigit = true) :
    ∀ x ∈ tempSegs a b c e, noQuote x = true := by
  intro x hx
  rw [tempSegs] at hx
  fin_cases hx <;> first
    | decide
    | exact ha
    | exact hb
    | exact hc
    | exact noQuote_append (by decide) (digits_noQuote he)

lemma splitQuotes_temp {a b c e : List Char} (ha : noQuote a = true) (hb : noQuote b = true)
    (hc : noQuote c = true) (he : ∀ x ∈ e, x.isDigit = true) :
    splitQuotes (manifestT a b c e) = ([], tempSegs a b c e) := by
  rw [manifestT]
  exact splitQuotes_renderQ (tempSegs a b c e) [] (by decide) (tempSegs_nq ha hb hc he)

lemma hasPair_slash_temp {a b c e : List Char} (y : Char) (hy : y ≠ '"')
    (ha : noSlash a = true) (hb : noSlash b = true) (hc : noSlash c = true)
    (he : ∀ x ∈ e, x.isDigit = true) :
    hasPair '/' y (manifestT a b c e) = false := by
  rw [manifestT, hasPair_renderQ (by decide) hy]
  simp only [Bool.or_eq_false_iff]
  refine ⟨rfl, ?_⟩
  rw [List.any_eq_false]
  intro x hx
  rw [tempSegs] at hx
  rw [Bool.not_eq_true]
  fin_cases hx <;> first
    | exact hasPair_of_not_fst (by decide)
    | exact hasPair_of_not_fst (noSlash_chars ha)
    | exact hasPair_of_not_fst (noSlash_chars hb)
    | exact hasPair_of_not_fst (noSlash_chars hc)
    | exact hasPair_of_not_fst (fun ch hch => by
        rcases List.mem_append.mp hch with h1 | h2
        · have hN : ∀ y2 ∈ nexusKey, y2 ≠ '/' := by decide
          exact hN ch h1
        · exact digit_ne_slash (he ch h2))

lemma stripComments_temp {a b c e : List Char} (ha : noSlash a = true) (hb : noSlash b = true)
    (hc : noSlash c = true) (he : ∀ x ∈ e, x.isDigit = true) :
    stripComments (manifestT a b c e) = manifestT a b c e :=
  stripComments_id (hasPair_slash_temp '*' (by decide) ha hb hc he)
    (hasPair_slash_temp '/' (by decide) ha hb hc he)

lemma searchSegs_step_false {eqc : Char → Char → Bool} {field k m val s3 : List Char}
    {rest : List (List Char)} (h : (matchedL eqc field k && wcw m) = false) :
    searchSegs eqc field (k :: m :: val :: s3 :: rest) =
      searchSegs eqc field (m :: val :: s3 :: rest) := by
  rw [searchSegs, if_neg (by rw [h]; exact Bool.noConfusion)]

lemma searchSegs_step_true {eqc : Char → Char → Bool} {field k m val s3 : List Char}
    {rest : List (List Char)} (h : (matchedL eqc field k && wcw m) = true) :
    searchSegs eqc field (k :: m :: val :: s3 :: rest) = some val := by
  rw [searchSegs, if_pos h]

lemma subSegs_step_false {field v k m val s3 : List Char} {rest : List (List Char)}
    (h : (matchedL beqChar field k && wcw m) = false) :
    subSegs field v (k :: m :: val :: s3 :: rest) =
      k :: subSegs field v (m :: val :: s3 :: rest) := by
  rw [subSegs, if_neg (by rw [h]; exact Bool.noConfusion)]

lemma subSegs_step_true {field v k m val s3 : List Char} {rest : List (List Char)}
    (h : (matchedL beqChar field k && wcw m) = true) :
    subSegs field v (k :: m :: val :: s3 :: rest) =
      k :: m :: v :: s3 :: subSegs field v rest := by
  rw [subSegs, if_pos h]

lemma searchSegs_temp_name (a b c e : List Char) :
    searchSegs beqChar nameKey (tempSegs a b c e) = some a := by
  rw [tempSegs]
  exact searchSegs_step_true (by decide)

lemma searchSegs_temp_desc (a b c e : List Char) :
    searchSegs beqChar descKey (tempSegs a b c e) = some b := by
  rw [tempSegs,
    searchSegs_step_false ((by decide) :
      (matchedL beqChar descKey nameKey && wcw sepColon) = false),
    searchSegs_step_false ((by simp [show matchedL beqChar descKey sepColon = false
      from by decide]) : (matchedL beqChar descKey sepColon && wcw a) = false),
    searchSegs_step_false ((by simp [show wcw sepComma = false from by decide]) :
      (matchedL beqChar descKey a && wcw sepComma) = false),
    searchSegs_step_false ((by decide) :
      (matchedL beqChar descKey sepComma && wcw descKey) = false)]
  exact searchSegs_step_true (by decide)

lemma searchSegs_temp_uid (a b c e : List Char) :
    searchSegs ciChar uidKey (tempSegs a b c e) = some c := by
  rw [tempSegs,
    searchSegs_step_false ((by decide) :
      (matchedL ciChar uidKey nameKey && wcw sepColon) = false),
    searchSegs_step_false ((by simp [show matchedL ciChar uidKey sepColon = false
      from by decide]) : (matchedL ciChar uidKey sepColon && wcw a) = false),
    searchSegs_step_false ((by simp [show wcw sepComma = false from by decide]) :
      (matchedL ciChar uidKey a && wcw sepComma) = false),
    searchSegs_step_false ((by decide) :
      (matchedL ciChar uidKey sepComma && wcw descKey) = false),
    searchSegs_step_false ((by decide) :
      (matchedL ciChar uidKey descKey && wcw sepColon) = false),
    searchSegs_step_false ((by simp [show matchedL ciChar uidKey sepColon = false
      from by decide]) : (matchedL ciChar uidKey sepColon && wcw b) = false),
    searchSegs_step_false ((by simp [show wcw sepComma = false from by decide]) :
      (matchedL ciChar uidKey b && wcw sepComma) = false),
    searchSegs_step_false ((by decide) :
      (matchedL ciChar uidKey sepComma && wcw uidKey) = false)]
  exact searchSegs_step_true (by decide)

lemma subSegs_temp_name (v a b c e : List Char) :
    subSegs nameKey v (tempSegs a b c e) = tempSegs v b c e := by
  rw [tempSegs,
    subSegs_step_true ((by decide) : (matchedL beqChar nameKey nameKey && wcw sepColon) = true),
    subSegs_step_false ((by decide) :
      (matchedL beqChar nameKey descKey && wcw sepColon) = false),
    subSegs_step_false ((by simp [show matchedL beqChar nameKey sepColon = false
      from by decide]) : (matchedL beqChar nameKey sepColon && wcw b) = false),
    subSegs_step_false ((by simp [show wcw sepComma = false from by decide]) :
      (matchedL beqChar nameKey b && wcw sepComma) = false),
    subSegs_step_false ((by decide) :
      (matchedL beqChar nameKey sepComma && wcw uidKey) = false),
    subSegs_step_false ((by decide) :
      (matchedL beqChar nameKey uidKey && wcw sepColon) = false),
    subSegs_step_false ((by simp [show matchedL beqChar nameKey sepColon = false
      from by decide]) : (matchedL beqChar nameKey sepColon && wcw c) = false),
    subSegs_step_false ((by simp [show wcw sepComma = false from by decide]) :
      (matchedL beqChar nameKey c && wcw sepComma) = false),
    subSegs_step_false ((by decide) :
      (matchedL beqChar nameKey sepComma && wcw ukKey) = false),
    subSegs_step_false ((by decide) :
      (matchedL beqChar nameKey ukKey && wcw sepColBr) = false)]
  simp [subSegs, tempSegs]

lemma subSegs_temp_desc (v a b c e : List Char) :
    subSegs descKey v (tempSegs a b c e) = tempSegs a v c e := by
  rw [tempSegs,
    subSegs_step_false ((by decide) :
      (matchedL beqChar descKey nameKey && wcw sepColon) = false),
    subSegs_step_false ((by simp [show matchedL beqChar descKey sepColon = false
      from by decide]) : (matchedL beqChar descKey sepColon && wcw a) = false),
    subSegs_step_false ((by simp [show wcw sepComma = false from by decide]) :
      (matchedL beqChar descKey a && wcw sepComma) = false),
    subSegs_step_false ((by decide) :
      (matchedL beqChar descKey sepComma && wcw descKey) = false),
    subSegs_step_true ((by decide) : (matchedL beqChar descKey descKey && wcw sepColon) = true),
    subSegs_step_false ((by decide) :
      (matchedL beqChar descKey uidKey && wcw sepColon) = false),
    subSegs_step_false ((by simp [show matchedL beqChar descKey sepColon = false
      from by decide]) : (matchedL beqChar descKey sepColon && wcw c) = false),
    subSegs_step_false ((by simp [show wcw sepComma = false from by decide]) :
      (matchedL beqChar descKey c && wcw sepComma) = false),
    subSegs_step_false ((by decide) :
      (matchedL beqChar descKey sepComma && wcw ukKey) = false),
    subSegs_step_false ((by decide) :
      (matchedL beqChar descKey ukKey && wcw sepColBr) = false)]
  simp [subSegs, tempSegs]

lemma searchField_temp_name {a b c e : List Char} (ha : noQuote a = true)
    (hb : noQuote b = true) (hc : noQuote c = true) (he : ∀ x ∈ e, x.isDigit = true) :
    searchField beqChar nameKey (manifestT a b c e) = some a := by
  rw [searchField_eq_segs (by decide) (manifestT a b c e), splitQuotes_temp ha hb hc he]
  exact searchSegs_temp_name a b c e

lemma searchField_temp_desc {a b c e : List Char} (ha : noQuote a = true)
    (hb : noQuote b = true) (hc : noQuote c = true) (he : ∀ x ∈ e, x.isDigit = true) :
    searchField beqChar descKey (manifestT a b c e) = some b := by
  rw [searchField_eq_segs (by decide) (manifestT a b c e), splitQuotes_temp ha hb hc he]
  exact searchSegs_temp_desc a b c e

lemma searchField_temp_uid {a b c e : List Char} (ha : noQuote a = true)
    (hb : noQuote b = true) (hc : noQuote c = true) (he : ∀ x ∈ e, x.isDigit = true) :
    searchField ciChar uidKey (manifestT a b c e) = some c := by
  rw [searchField_eq_segs (by decide) (manifestT a b c e), splitQuotes_temp ha hb hc he]
  exact searchSegs_temp_uid a b c e

lemma subField_temp_name (v : List Char) {a b c e : List Char} (ha : noQuote a = true)
    (hb : noQuote b = true) (hc : noQuote c = true) (he : ∀ x ∈ e, x.isDigit = true) :
    subField nameKey v true (manifestT a b c e) = manifestT v b c e := by
  rw [subField_eq_segs (by decide) v (manifestT a b c e), splitQuotes_temp ha hb hc he]
  dsimp only
  rw [subSegs_temp_name]
  rfl

lemma subField_temp_desc (v : List Char) {a b c e : List Char} (ha : noQuote a = true)
    (hb : noQuote b = true) (hc : noQuote c = true) (he : ∀ x ∈ e, x.isDigit = true) :
    subField descKey v true (manifestT a b c e) = manifestT a v c e := by
  rw [subField_eq_segs (by decide) v (manifestT a b c e), splitQuotes_temp ha hb hc he]
  dsimp only
  rw [subSegs_temp_desc]
  rfl

lemma patchOne_temp_name (v : List Char) {a b c e : List Char} (hv : noQuote v = true)
    (hs : saneStart v = true) (ha : noQuote a = true) (hb : noQuote b = true)
    (hc : noQuote c = true) (he : ∀ x ∈ e, x.isDigit = true) :
    patchOne nameKey v (manifestT a b c e) = some (manifestT v b c e, true) := by
  have hsome : (searchField beqChar nameKey (manifestT a b c e)).isSome = true := by
    rw [searchField_temp_name ha hb hc he]
    rfl
  rw [patchOne_of_search_some hsome hs hv, subField_temp_name v ha hb hc he]

lemma patchOne_temp_desc (v : List Char) {a b c e : List Char} (hv : noQuote v = true)
    (hs : saneStart v = true) (ha : noQuote a = true) (hb : noQuote b = true)
    (hc : noQuote c = true) (he : ∀ x ∈ e, x.isDigit = true) :
    patchOne descKey v (manifestT a b c e) = some (manifestT a v c e, true) := by
  have hsome : (searchField beqChar descKey (manifestT a b c e)).isSome = true := by
    rw [searchField_temp_desc ha hb hc he]
    rfl
  rw [patchOne_of_search_some hsome hs hv, subField_temp_desc v ha hb hc he]

lemma matchUKAt_not_quote {c : Char} (h : c ≠ '"') (t : List Char) :
    matchUKAt (c :: t) = none := by
  simp [matchUKAt, matchChar, h]

lemma searchUK_cons_none {c : Char} {t : List Char} (h : matchUKAt (c :: t) = none) :
    searchUK (c :: t) = searchUK t := by
  simp only [searchUK, h]

lemma searchUK_cons_some {c : Char} {t r : List Char} (h : matchUKAt (c :: t) = some r) :
    searchUK (c :: t) = some r := by
  simp only [searchUK, h]

lemma searchUK_append_nq : ∀ {seg : List Char}, noQuote seg = true →
    ∀ rest : List Char, searchUK (seg ++ rest) = searchUK rest := by
  intro seg
  induction seg with
  | nil => intro _ rest; rfl
  | cons x t ih =>
    intro h rest
    rw [noQuote, List.all_cons, Bool.and_eq_true] at h
    obtain ⟨hx, ht⟩ := h
    rw [List.cons_append, searchUK_cons_none (matchUKAt_not_quote (by simpa using hx) _)]
    exact ih ht rest

lemma searchUK_flat_cskip (seg : List Char) (hq : noQuote seg = true)
    (hm : ∀ rest : List Char, matchUKAt ('"' :: (seg ++ rest)) = none)
    (segs : List (List Char)) :
    searchUK (flatQ (seg :: segs)) = searchUK (flatQ segs) := by
  rw [flatQ, searchUK_cons_none (hm (flatQ segs))]
  exact searchUK_append_nq hq _

lemma matchUKAt_val {a : List Char} (h : noQuote a = true) (rest : List Char) :
    matchUKAt ('"' :: (a ++ '"' :: ',' :: rest)) = none := by
  cases hL : matchLits beqChar ukKey (a ++ '"' :: ',' :: rest) with
  | none => simp [matchUKAt, matchChar_cons, hL]
  | some s2 =>
    obtain ⟨p, hp, hm⟩ := matchLits_some hL
    have hpk : p = ukKey := matchedL_beq.mp hm
    rw [hpk] at hp
    rcases List.append_eq_append_iff.mp hp with ⟨a2, ha2, hs2⟩ | ⟨c2, hc2, hs2⟩
    · cases a2 with
      | nil =>
        rw [List.nil_append] at hs2
        subst hs2
        simp [matchUKAt, matchChar_cons, hL, matchChar,
          show isWS ',' = false from by decide, List.dropWhile_cons]
      | cons x a2t =>
        exfalso
        have hx : '"' = x := by
          rw [List.cons_append] at hs2
          injection hs2 with h1 h2
        have hxmem : x ∈ ukKey := by
          rw [ha2]
          exact List.mem_append_right a (List.mem_cons_self x a2t)
        have hno : ∀ ch ∈ ukKey, ch ≠ '"' := by decide
        exact hno x hxmem (by rw [← hx])
    · cases c2 with
      | nil =>
        rw [List.nil_append] at hs2
        subst hs2
        simp [matchUKAt, matchChar_cons, hL, matchChar,
          show isWS ',' = false from by decide, List.dropWhile_cons]
      | cons x c2t =>
        have hxa : x ∈ a := by
          rw [hc2]
          exact List.mem_append_right ukKey (List.mem_cons_self x c2t)
        have hxq : x ≠ '"' := noQuote_iff.mp h x hxa
        rw [List.cons_append] at hs2
        subst hs2
        simp [matchUKAt, matchChar_cons, hL, matchChar, hxq]

lemma searchUK_flat_val (a : List Char) (hq : noQuote a = true) (segs : List (List Char)) :
    searchUK (flatQ (a :: sepComma :: segs)) = searchUK (flatQ (sepComma :: segs)) := by
  have hsh : flatQ (a :: sepComma :: segs) = '"' :: (a ++ '"' :: ',' :: (' ' :: flatQ segs)) := by
    simp [flatQ, sepComma]
  rw [hsh, searchUK_cons_none (matchUKAt_val hq (' ' :: flatQ segs)),
    searchUK_append_nq hq]
  rfl

lemma matchUKAt_ukLit (e : List Char) (he : ∀ x ∈ e, x.isDigit = true) :
    matchUKAt ('"' :: (ukKey ++
        ('"' :: ':' :: ' ' :: '[' :: '"' :: ((nexusKey ++ e) ++ '"' :: ']' :: [])))) =
      some ('"' :: ((nexusKey ++ e) ++ ['"'])) := by
  have hall : ('"' :: ((nexusKey ++ e) ++ ['"'])).all (fun ch => ch != ']') = true := by
    rw [List.all_eq_true]
    intro x hx
    rcases List.mem_cons.mp hx with rfl | hx1
    · decide
    rcases List.mem_append.mp hx1 with hx2 | hx3
    · rcases List.mem_append.mp hx2 with hx4 | hx5
      · have hN : ∀ y ∈ nexusKey, (y != ']') = true := by decide
        exact hN x hx4
      · simpa using digit_ne_rbracket (he x hx5)
    · rcases List.mem_cons.mp hx3 with rfl | hx6
      · decide
      · simp at hx6
  have hsp : splitAtChar ']' ('"' :: ((nexusKey ++ e) ++ '"' :: ']' :: [])) =
      some ('"' :: ((nexusKey ++ e) ++ ['"']), []) := by
    have h2 := splitAtChar_exact (d := ']') hall []
    rw [show ('"' :: ((nexusKey ++ e) ++ ['"'])) ++ (']' :: []) =
        '"' :: ((nexusKey ++ e) ++ '"' :: ']' :: []) from by simp] at h2
    exact h2
  show (splitAtChar ']' ('"' :: ((nexusKey ++ e) ++ '"' :: ']' :: []))).map (fun p => p.1) =
      some ('"' :: ((nexusKey ++ e) ++ ['"']))
  rw [hsp]
  rfl

lemma searchUK_temp {a b c e : List Char} (ha : noQuote a = true) (hb : noQuote b = true)
    (hc : noQuote c = true) (he : ∀ x ∈ e, x.isDigit = true) :
    searchUK (manifestT a b c e) = some ('"' :: ((nexusKey ++ e) ++ ['"'])) := by
  have h0 : manifestT a b c e = flatQ (tempSegs a b c e) := by
    simp [manifestT, renderQ]
  rw [h0, tempSegs,
    searchUK_flat_cskip nameKey (by decide) (fun rest => rfl),
    searchUK_flat_cskip sepColon (by decide) (fun rest => rfl),
    searchUK_flat_val a ha,
    searchUK_flat_cskip sepComma (by decide) (fun rest => rfl),
    searchUK_flat_cskip descKey (by decide) (fun rest => rfl),
    searchUK_flat_cskip sepColon (by decide) (fun rest => rfl),
    searchUK_flat_val b hb,
    searchUK_flat_cskip sepComma (by decide) (fun rest => rfl),
    searchUK_flat_cskip uidKey (by decide) (fun rest => rfl),
    searchUK_flat_cskip sepColon (by decide) (fun rest => rfl),
    searchUK_flat_val c hc,
    searchUK_flat_cskip sepComma (by decide) (fun rest => rfl)]
  have hfl : flatQ [ukKey, sepColBr, nexusKey ++ e, sepEnd] =
      '"' :: (ukKey ++
        ('"' :: ':' :: ' ' :: '[' :: '"' :: ((nexusKey ++ e) ++ '"' :: ']' :: []))) := by
    simp [flatQ, sepColBr, sepEnd]
  rw [hfl]
  exact searchUK_cons_some (matchUKAt_ukLit e he)

lemma searchNexus_cons_some {c : Char} {t r : List Char}
    (h : matchNexusAt (c :: t) = some r) : searchNexus (c :: t) = some r := by
  simp only [searchNexus, h]

lemma searchNexus_cap (e : List Char) (hne : e ≠ []) (he : ∀ x ∈ e, x.isDigit = true) :
    searchNexus ('"' :: ((nexusKey ++ e) ++ ['"'])) = some e := by
  have htw := takeWhile_exact (p := Char.isDigit) (w := e) (c := '"') (r := []) he (by decide)
  have hemp : ¬((e : List Char).isEmpty = true) := by
    cases e with
    | nil => exact absurd rfl hne
    | cons x t => simp
  have hm : matchNexusAt ('"' :: ((nexusKey ++ e) ++ ['"'])) = some e := by
    show (if ((e ++ '"' :: []).takeWhile Char.isDigit).isEmpty then none
        else (matchChar '"' ((e ++ '"' :: []).dropWhile Char.isDigit)).map
          fun _ => (e ++ '"' :: []).takeWhile Char.isDigit) = some e
    rw [htw.1, htw.2, if_neg hemp]
    rfl
  exact searchNexus_cons_some hm

lemma extract_temp (f p : List Char) (a b c e : List Char) (hqa : noQuote a = true)
    (hqb : noQuote b = true) (hqc : noQuote c = true) (hsa : noSlash a = true)
    (hsb : noSlash b = true) (hsc : noSlash c = true)
    (he : ∀ x ∈ e, x.isDigit = true) (hne : e ≠ []) :
    (extractRecord f p (manifestT a b c e)).name = some a ∧
    (extractRecord f p (manifestT a b c e)).description = some b ∧
    (extractRecord f p (manifestT a b c e)).uniqueID = (if c.isEmpty then f else c) ∧
    (extractRecord f p (manifestT a b c e)).nurl = some (urlHead ++ e) := by
  have hst : stripComments (manifestT a b c e) = manifestT a b c e :=
    stripComments_temp hsa hsb hsc he
  refine ⟨?_, ?_, ?_, ?_⟩
  · show searchField beqChar nameKey (stripComments (manifestT a b c e)) = some a
    rw [hst]
    exact searchField_temp_name hqa hqb hqc he
  · show searchField beqChar descKey (stripComments (manifestT a b c e)) = some b
    rw [hst]
    exact searchField_temp_desc hqa hqb hqc he
  · show (match searchField ciChar uidKey (stripComments (manifestT a b c e)) with
      | some w => if w.isEmpty then f else w
      | none => f) = (if c.isEmpty then f else c)
    rw [hst, searchField_temp_uid hqa hqb hqc he]
  · show ((searchUK (stripComments (manifestT a b c e))).bind fun span =>
        (searchNexus span).map fun ds => urlHead ++ ds) = some (urlHead ++ e)
    rw [hst, searchUK_temp hqa hqb hqc he]
    show (searchNexus ('"' :: ((nexusKey ++ e) ++ ['"']))).map (fun ds => urlHead ++ ds) =
      some (urlHead ++ e)
    rw [searchNexus_cap e hne he]
    rfl

/-- C4 (amended): on a canonical manifest text with quoted Name, Description,
UniqueID and an `"UpdateKeys": ["Nexus:num"]` array, patching Name to N2 and
then Description to D2 yields exactly the canonical manifest with those two
values, and extraction from the patched text returns name = N2 and
description = D2 while UniqueID and the Nexus update URL extract to the same
values as from the original text — provided every value is quote-free and
slash-free, the replacement values do not start with a decimal digit, and the
Nexus id is a non-empty digit string.  For a replacement value containing a
double quote the round trip fails: see the counterexample. -/
theorem c4_round_trip (f p n d u N2 D2 num : List Char)
    (hqn : noQuote n = true) (hqd : noQuote d = true) (hqu : noQuote u = true)
    (hqN : noQuote N2 = true) (hqD : noQuote D2 = true)
    (hsN : saneStart N2 = true) (hsD : saneStart D2 = true)
    (hsln : noSlash n = true) (hsld : noSlash d = true) (hslu : noSlash u = true)
    (hslN : noSlash N2 = true) (hslD : noSlash D2 = true)
    (hnum : ∀ x ∈ num, x.isDigit = true) (hne : num ≠ []) :
    patchOne nameKey N2 (manifestT n d u num) = some (manifestT N2 d u num, true) ∧
    patchOne descKey D2 (manifestT N2 d u num) = some (manifestT N2 D2 u num, true) ∧
    (extractRecord f p (manifestT n d u num)).name = some n ∧
    (extractRecord f p (manifestT n d u num)).description = some d ∧
    (extractRecord f p (manifestT N2 D2 u num)).name = some N2 ∧
    (extractRecord f p (manifestT N2 D2 u num)).description = some D2 ∧
    (extractRecord f p (manifestT N2 D2 u num)).uniqueID =
      (extractRecord f p (manifestT n d u num)).uniqueID ∧
    (extractRecord f p (manifestT N2 D2 u num)).nurl =
      (extractRecord f p (manifestT n d u num)).nurl := by
  obtain ⟨hn1, hd1, hu1, hr1⟩ :=
    extract_temp f p n d u num hqn hqd hqu hsln hsld hslu hnum hne
  obtain ⟨hn2, hd2, hu2, hr2⟩ :=
    extract_temp f p N2 D2 u num hqN hqD hqu hslN hslD hslu hnum hne
  refine ⟨?_, ?_, hn1, hd1, hn2, hd2, ?_, ?_⟩
  · exact patchOne_temp_name N2 hqN hsN hqn hqd hqu hnum
  · exact patchOne_temp_desc D2 hqD hsD hqN hqd hqu hnum
  · rw [hu2, hu1]
  · rw [hr2, hr1]

/-- Witness for C4 on a concrete canonical manifest. -/
theorem c4_round_trip_witness :
    patchOne nameKey ['X'] (manifestT ['a'] ['b'] ['u'] ['7']) =
      some (manifestT ['X'] ['b'] ['u'] ['7'], true) :=
  (c4_round_trip ['F'] ['P'] ['a'] ['b'] ['u'] ['X'] ['Y'] ['7'] (by decide) (by decide)
    (by decide) (by decide) (by decide) (by decide) (by decide) (by decide) (by decide)
    (by decide) (by decide) (by decide) (by decide) (by decide)).1

/-- C4 as stated fails for a replacement value containing a double quote:
patching Name to `x"y` and then Description to `z` produces a text whose
Name extracts to `x\`, not to `x"y`. -/
theorem c4_counterexample :
    patchOne nameKey ['x', '"', 'y'] "\"Name\": \"a\", \"Description\": \"b\"".data =
      some ("\"Name\": \"x\\\"y\", \"Description\": \"b\"".data, true) ∧
    patchOne descKey ['z'] "\"Name\": \"x\\\"y\", \"Description\": \"b\"".data =
      some ("\"Name\": \"x\\\"y\", \"Description\": \"z\"".data, true) ∧
    (extractRecord ['F'] ['P'] "\"Name\": \"x\\\"y\", \"Description\": \"z\"".data).name =
      some ['x', '\\'] ∧
    (['x', '\\'] : List Char) ≠ ['x', '"', 'y'] := by
  refine ⟨by decide, by decide, by decide, by decide⟩

end SMTMS
